import Mathlib

/-!
Verification of the CryptoBlob packing layer of `with_cloud_blob`
(`src/with_cloud_blob/_crypto.py`), as a shallow embedding in Lean.

Modelling conventions:
* Python `str` and `bytes` are both modelled as `List Nat` (code points /
  octet values).  `str.encode` / `bytes.decode` are therefore the identity.
* Python dicts are modelled as association lists in insertion order, with
  `assocFind?` (first match) as lookup; dict construction keeps keys unique,
  matching CPython semantics.
* Python `set` / `frozenset` values are modelled as `Finset`.
* Exceptions are modelled with `Except Err`; the `Error` messages raised by
  the source are mapped to the error kinds named by the specification
  (`BAD_LAYOUT`, `OUT_OF_TREE`, `CRYPTO_ERROR`, ...).
-/

namespace WithCloudBlob

/-- Model of Python `str` values: the list of code points. -/
abbrev Str : Type := List Nat

/-- Model of Python `bytes` values. -/
abbrev Bytes : Type := List Nat

/-- Embed a Lean string literal as its list of code points. -/
def strLit (s : String) : Str := s.data.map Char.toNat

/-- The code point of the path separator character. -/
def slash : Nat := 47

/-- Error kinds of the specification (section 7). -/
inductive Err where
  | BAD_LAYOUT
  | OUT_OF_TREE
  | UNSUPPORTED_NODE
  | UNSUPPORTED_VERSION
  | CRYPTO_ERROR
  | ASSERTION_ERROR
deriving DecidableEq

/-- Source `FileMetadata` (`_crypto.py` line 180). -/
structure FileMetadata where
  mtime_ns : Int
  flags : Nat
deriving DecidableEq

/-- Source `FileMetadataFlag.SYMLINK`. -/
def SYMLINK : Nat := 1

/-- Source `FileMetadataFlag.SYMLINK_ABS`. -/
def SYMLINK_ABS : Nat := 2

/-- Source `FilesCollectionItem` (`_crypto.py` line 186). -/
structure FilesCollectionItem where
  metadata : FileMetadata
  body_id : Nat
deriving DecidableEq

/-- Source `FilesCollection` (`_crypto.py` line 192).  The `_bodies_dict`
cache is not stored: it always maps a body to its first index in `bodies`,
which `add_body` recomputes with `findIdx?`. -/
structure FilesCollection where
  bodies : List Bytes
  files : List (Str × FilesCollectionItem)
deriving DecidableEq

/-- Source `FilesCollection.add_body` (`_crypto.py` line 202): return the
index of an existing equal body, else append. -/
def add_body (bodies : List Bytes) (body : Bytes) : Nat × List Bytes :=
  match bodies.findIdx? (fun b => b = body) with
  | some i => (i, bodies)
  | none => (bodies.length, bodies ++ [body])

/-- Decidable equality for `Except`, used to evaluate the model on
concrete inputs. -/
instance exceptDecEq {ε α : Type} [DecidableEq ε] [DecidableEq α] :
    DecidableEq (Except ε α)
  | .error e1, .error e2 =>
    if h : e1 = e2 then isTrue (by rw [h]) else isFalse (fun hh => h (Except.error.inj hh))
  | .error _, .ok _ => isFalse (fun hh => Except.noConfusion hh)
  | .ok _, .error _ => isFalse (fun hh => Except.noConfusion hh)
  | .ok a1, .ok a2 =>
    if h : a1 = a2 then isTrue (by rw [h]) else isFalse (fun hh => h (Except.ok.inj hh))

/-- Python dict lookup on an association list (first matching key). -/
def assocFind? {κ ν : Type} [DecidableEq κ] (k : κ) : List (κ × ν) → Option ν
  | [] => none
  | e :: rest => if e.1 = k then some e.2 else assocFind? k rest

/-- Python in-place mutation of a dict value, `d[k].mutate()`: apply `f` to
the value stored under `k` (a no-op when `k` is absent). -/
def assocUpdate {κ ν : Type} [DecidableEq κ] (l : List (κ × ν)) (k : κ) (f : ν → ν) :
    List (κ × ν) :=
  l.map (fun e => if e.1 = k then (k, f e.2) else e)

/-- Python dict assignment `d[k] = v`: replace in place, else append. -/
def dictInsert {κ ν : Type} [DecidableEq κ] (l : List (κ × ν)) (k : κ) (v : ν) :
    List (κ × ν) :=
  if (assocFind? k l).isSome then assocUpdate l k (fun _ => v)
  else l ++ [(k, v)]

/-- Python `s.startswith(p)`. -/
def pyStartswith (s p : Str) : Bool := p.isPrefixOf s

/-- Helper loop of `strip_prefix` (`_crypto.py` line 293). -/
def stripPfxAux (s : Str) (i : Nat) : List Str → Int × Str
  | [] => (-1, s)
  | p :: rest =>
    if pyStartswith s p then ((i : Int), s.drop p.length) else stripPfxAux s (i + 1) rest

/-- Source `strip_prefix` (`_crypto.py` line 293): index of the first
matching prefix and the remainder, or `(-1, s)`. -/
def stripPfx (s : Str) (pfxs : List Str) : Int × Str := stripPfxAux s 0 pfxs

/-- Split a string at the first occurrence of `sep`, if any. -/
def splitFirst (sep : Nat) : Str → Option (Str × Str)
  | [] => none
  | c :: cs =>
    if c = sep then some ([], cs)
    else Option.map (fun p => (c :: p.1, p.2)) (splitFirst sep cs)

/-- Python `s.split(sep, 1)`. -/
def pySplit1 (sep : Nat) (s : Str) : List Str :=
  match splitFirst sep s with
  | some p => [p.1, p.2]
  | none => [s]

/-- Helper for `pySplit`, accumulating the current token reversed. -/
def pySplitAux (sep : Nat) : Str → Str → List Str
  | [], acc => [acc.reverse]
  | c :: cs, acc =>
    if c = sep then acc.reverse :: pySplitAux sep cs []
    else pySplitAux sep cs (c :: acc)

/-- Python `s.split(sep)` (unbounded, keeps empty tokens). -/
def pySplit (sep : Nat) (s : Str) : List Str := pySplitAux sep s []

/-- Python `sep.join(parts)`. -/
def pyJoin (sep : Nat) (parts : List Str) : Str := List.intercalate [sep] parts

/-- The classification step of `partition_files` (`_crypto.py` lines
313-328): strip `master/` (principal `""`) or `tenants/` followed by a
`<name>/` component (principal `<name>`); `none` models the
`BAD_LAYOUT` error. -/
def classifyFile (fname : Str) : Option (Str × Str) :=
  let pr := stripPfx fname [strLit "master/", strLit "tenants/"]
  if pr.1 = 0 then some ([], pr.2)
  else if pr.1 = 1 then
    match pySplit1 slash pr.2 with
    | [k, rest] => some (k, rest)
    | _ => none
  else none

/-- The relative-symlink traversal loop of `validate_symlink`
(`_crypto.py` lines 350-363): `.` is skipped, `..` pops the last component
(failing on an empty stack), anything else is pushed. -/
def walkParts : List Str → List Str → Except Err (List Str)
  | [], cur => .ok cur
  | p :: ps, cur =>
    if p = strLit "." then walkParts ps cur
    else if p = strLit ".." then
      if cur.isEmpty then .error .OUT_OF_TREE
      else walkParts ps cur.dropLast
    else walkParts ps (cur ++ [p])

/-- The `required_prefix` computed by `validate_symlink`
(`_crypto.py` lines 335-338). -/
def requiredPfx (key : Str) : List Str :=
  if key ≠ [] then [strLit "tenants", key] else [strLit "master"]

/-- Source `partition_files.validate_symlink` (`_crypto.py` lines 331-365):
checks and possibly rewrites the body of a symlink entry, returning the
(possibly new) body id and the (possibly extended) body table.  Note that
for relative links the traversal starts from `fname.split("/")`, the
file's own path components including the final file name. -/
def validate_symlink (bodies : List Bytes) (flags : Nat) (key fname : Str)
    (body_id : Nat) : Except Err (Nat × List Bytes) :=
  let target : Str := bodies.getD body_id []
  let target_parts := pySplit slash target
  let req := requiredPfx key
  if flags &&& SYMLINK_ABS ≠ 0 then
    if target_parts.take req.length ≠ req then .error .OUT_OF_TREE
    else .ok (add_body bodies (pyJoin slash (target_parts.drop req.length)))
  else
    match walkParts target_parts (pySplit slash fname) with
    | .error e => .error e
    | .ok _ => .ok (body_id, bodies)

/-- The per-file record built by the first loop of `partition_files`
(`_crypto.py` lines 304-311). -/
structure PFile where
  key : Str
  name : Str
  f : FilesCollectionItem
  body_id : Nat
deriving DecidableEq

/-- Decidable equality for the state threaded by the first loop of
`partition_files` (instance search does not assemble the nested product on
its own within its default size limit). -/
instance tripleDecEq :
    DecidableEq (List Bytes × List (Nat × Finset Str) × List PFile) :=
  fun a b => instDecidableEqProd a b

/-- Source `keys_by_body_id.setdefault(body_id, set()).add(key)`
(`_crypto.py` line 369). -/
def kbbAdd (kbb : List (Nat × Finset Str)) (b : Nat) (k : Str) :
    List (Nat × Finset Str) :=
  match assocFind? b kbb with
  | some _ => assocUpdate kbb b (fun s => insert k s)
  | none => kbb ++ [(b, {k})]

/-- The first loop of `partition_files` (`_crypto.py` lines 313-377):
classify each file, validate and rewrite symlink bodies, and record the
visibility set of each referenced body.  Returns the grown body table,
the body-id to visibility-set map, and the per-file records in input
order. -/
def processFiles (bodies : List Bytes) (kbb : List (Nat × Finset Str)) :
    List (Str × FilesCollectionItem) →
    Except Err (List Bytes × List (Nat × Finset Str) × List PFile)
  | [] => .ok (bodies, kbb, [])
  | (fname, f) :: rest =>
    match classifyFile fname with
    | none => .error .BAD_LAYOUT
    | some kn =>
      if f.metadata.flags &&& SYMLINK ≠ 0 then
        match validate_symlink bodies f.metadata.flags kn.1 kn.2 f.body_id with
        | .error e => .error e
        | .ok bb =>
          match processFiles bb.2 (kbbAdd kbb bb.1 kn.1) rest with
          | .error e => .error e
          | .ok r => .ok (r.1, r.2.1, ⟨kn.1, kn.2, f, bb.1⟩ :: r.2.2)
      else
        match processFiles bodies (kbbAdd kbb f.body_id kn.1) rest with
        | .error e => .error e
        | .ok r => .ok (r.1, r.2.1, ⟨kn.1, kn.2, f, f.body_id⟩ :: r.2.2)

/-- Source `FilesPartitionsItem` (`_crypto.py` line 257). -/
structure FilesPartitionsItem where
  metadata : FileMetadata
  partition_id : Nat
  body_id : Nat
deriving DecidableEq

/-- Source `FilesPartitions` (`_crypto.py` line 286). -/
structure FilesPartitions where
  partitions : List (List Bytes)
  used_partitions : List (Str × Finset Nat)
  files : List (Str × List (Str × FilesPartitionsItem))
deriving DecidableEq

/-- State of the partition-allocation loop (`_crypto.py` lines 379-398). -/
structure AllocSt where
  k2p : List (Finset Str × Nat)
  partitions : List (List Bytes)
  b2p : List (Nat × (Nat × Nat))
  used : List (Str × Finset Nat)
deriving DecidableEq

/-- Source `result.used_partitions.setdefault(key, set()).add(partition_id)`
(`_crypto.py` line 398). -/
def usedAdd (used : List (Str × Finset Nat)) (k : Str) (pid : Nat) :
    List (Str × Finset Nat) :=
  match assocFind? k used with
  | some _ => assocUpdate used k (fun s => insert pid s)
  | none => used ++ [(k, {pid})]

/-- Computable enumeration of a visibility set, in lexicographic order
(models iteration over a Python `set`; the order only influences the
insertion order of the dict being filled). -/
def finsetKeys (s : Finset Str) : List Str :=
  Quot.lift (fun l => List.insertionSort (fun a b => a ≤ b) l)
    (fun l₁ l₂ h => List.eq_of_perm_of_sorted
      (((List.perm_insertionSort _ l₁).trans h).trans (List.perm_insertionSort _ l₂).symm)
      (List.sorted_insertionSort _ l₁) (List.sorted_insertionSort _ l₂)) s.val

/-- Iterate `usedAdd` over every key of a visibility set.  The iteration
order over the Python `set` only affects the insertion order of the
`used_partitions` dict, never its contents. -/
def usedAddAll (used : List (Str × Finset Nat)) (keys : List Str) (pid : Nat) :
    List (Str × Finset Nat) :=
  keys.foldl (fun u k => usedAdd u k pid) used

/-- One iteration of the allocation loop of `partition_files`
(`_crypto.py` lines 389-398): find or allocate the partition of the
visibility set, append the body, record its location, mark the partition
used by each key. -/
def allocStep (bodies : List Bytes) (st : AllocSt) (e : Nat × Finset Str) : AllocSt :=
  let pid := match assocFind? e.2 st.k2p with
    | some p => p
    | none => st.k2p.length
  let k2p := match assocFind? e.2 st.k2p with
    | some _ => st.k2p
    | none => st.k2p ++ [(e.2, st.k2p.length)]
  let parts0 := if pid = st.partitions.length then st.partitions ++ [[]] else st.partitions
  let idx := (parts0.getD pid []).length
  let parts1 := parts0.set pid ((parts0.getD pid []) ++ [bodies.getD e.1 []])
  { k2p := k2p
    partitions := parts1
    b2p := st.b2p ++ [(e.1, (pid, idx))]
    used := usedAddAll st.used (finsetKeys e.2) pid }

/-- The allocation loop of `partition_files` over the sorted body ids. -/
def allocLoop (bodies : List Bytes) (items : List (Nat × Finset Str)) (st : AllocSt) :
    AllocSt :=
  items.foldl (allocStep bodies) st

/-- Insert into the nested `result.files` dict
(`_crypto.py` line 402). -/
def filesAdd (acc : List (Str × List (Str × FilesPartitionsItem))) (key name : Str)
    (it : FilesPartitionsItem) : List (Str × List (Str × FilesPartitionsItem)) :=
  match assocFind? key acc with
  | some _ => assocUpdate acc key (fun inner => dictInsert inner name it)
  | none => acc ++ [(key, [(name, it)])]

/-- The `FilesPartitionsItem` emitted for one file by the final loop of
`partition_files` (`_crypto.py` line 402): the file's metadata plus its
body's new location from `body_id_to_partition_body_id` (the lookup never
misses, so the `(0, 0)` default models the always-present dict entry). -/
def emitItem (b2p : List (Nat × (Nat × Nat))) (i : PFile) : FilesPartitionsItem :=
  ⟨i.f.metadata, ((assocFind? i.body_id b2p).getD (0, 0)).1,
   ((assocFind? i.body_id b2p).getD (0, 0)).2⟩

/-- One iteration of the final loop of `partition_files`. -/
def emitStep (b2p : List (Nat × (Nat × Nat)))
    (a : List (Str × List (Str × FilesPartitionsItem))) (i : PFile) :
    List (Str × List (Str × FilesPartitionsItem)) :=
  filesAdd a i.key i.name (emitItem b2p i)

/-- The final loop of `partition_files` (`_crypto.py` lines 400-406):
emit a `FilesPartitionsItem` per file at its body's new location. -/
def emitFiles (b2p : List (Nat × (Nat × Nat))) (pfiles : List PFile) :
    List (Str × List (Str × FilesPartitionsItem)) :=
  pfiles.foldl (emitStep b2p) []

/-- Lookup in the nested `files` dict: principal, then relative name. -/
def findNested (acc : List (Str × List (Str × FilesPartitionsItem))) (key name : Str) :
    Option FilesPartitionsItem :=
  (assocFind? key acc).bind (fun inner => assocFind? name inner)

/-- Insertion step of the sort used to model Python `sorted`. -/
def insLe {α : Type} (le : α → α → Bool) (x : α) : List α → List α
  | [] => [x]
  | y :: ys => if le x y then x :: y :: ys else y :: insLe le x ys

/-- Insertion sort used to model Python `sorted` (all the sort keys in
`partition_files` are distinct, so stability is irrelevant). -/
def sortLe {α : Type} (le : α → α → Bool) (l : List α) : List α :=
  l.foldr (insLe le) []

/-- Lexicographic strict order on code-point lists, as Python compares
strings. -/
def strLtB : Str → Str → Bool
  | [], [] => false
  | [], _ :: _ => true
  | _ :: _, [] => false
  | a :: as, b :: bs => if a < b then true else if a = b then strLtB as bs else false

/-- Reflexive closure of `strLtB`. -/
def strLeB (a b : Str) : Bool := strLtB a b || a = b

/-- Source `partition_files` (`_crypto.py` lines 301-408). -/
def partition_files (collection : FilesCollection) : Except Err FilesPartitions :=
  let sortedFiles := sortLe (fun x y => strLeB x.1 y.1) collection.files
  match processFiles collection.bodies [] sortedFiles with
  | .error e => .error e
  | .ok r =>
    let kbbSorted := sortLe (fun x y => Nat.ble x.1 y.1) r.2.1
    let st := allocLoop r.1 kbbSorted ⟨[], [], [], []⟩
    .ok ⟨st.partitions, st.used, emitFiles st.b2p r.2.2⟩

/-- The C1 scenario from the specification: a source tree holding the
single relative symlink `master/link` with target
`../tenants/one/secret`. -/
def c1_collection : FilesCollection :=
  ⟨[strLit "../tenants/one/secret"],
   [(strLit "master/link", ⟨⟨0, SYMLINK⟩, 0⟩)]⟩

/-- Accumulate the distinct elements of `l` in first-encounter order, after
`acc`: the order in which `partition_files` allocates partition ids to
visibility sets. -/
def appendDedup {α : Type} [DecidableEq α] (acc l : List α) : List α :=
  l.foldl (fun a x => if x ∈ a then a else a ++ [x]) acc

/-- Replay of the `keys_by_body_id` construction of the first loop of
`partition_files` over the per-file records it produces. -/
def kbbFold (kbb : List (Nat × Finset Str)) (pfiles : List PFile) :
    List (Nat × Finset Str) :=
  pfiles.foldl (fun k pf => kbbAdd k pf.body_id pf.key) kbb

/-- The visibility set of a body: the set of principal names whose files
reference it (after symlink-body rewriting). -/
def visSet (pfiles : List PFile) (b : Nat) : Finset Str :=
  ((pfiles.filter (fun pf => pf.body_id = b)).map (fun pf => pf.key)).toFinset

/-- The referenced body ids (after symlink-body rewriting). -/
def bodyIds (pfiles : List PFile) : Finset Nat :=
  (pfiles.map (fun pf => pf.body_id)).toFinset

/-- The body bytes a file resolves to after the first loop of
`partition_files`: the original body, except for an absolute symlink whose
body is rewritten relative to the principal prefix. -/
def expectedBody (orig : List Bytes) (key : Str) (f : FilesCollectionItem) : Bytes :=
  let target := orig.getD f.body_id []
  if f.metadata.flags &&& SYMLINK ≠ 0 then
    if f.metadata.flags &&& SYMLINK_ABS ≠ 0 then
      pyJoin slash ((pySplit slash target).drop (requiredPfx key).length)
    else target
  else target

/-- Invariant of the partition-allocation loop of `partition_files` after
the entries `processed` of `keys_by_body_id` have been handled: partition
ids are positions in the keyset map, which lists the visibility sets in
first-encounter order; every recorded body location points at the body's
bytes; every slot of every partition is recorded; every key of a handled
visibility set is present in `used_partitions`. -/
structure AllocInv (bodies : List Bytes) (processed : List (Nat × Finset Str))
    (st : AllocSt) : Prop where
  len_eq : st.partitions.length = st.k2p.length
  k2p_fst : st.k2p.map Prod.fst = appendDedup [] (processed.map Prod.snd)
  k2p_snd : ∀ j, j < st.k2p.length → (st.k2p.getD j (∅, 0)).2 = j
  b2p_fst : st.b2p.map Prod.fst = processed.map Prod.fst
  b2p_ok : ∀ e ∈ st.b2p, e.2.1 < st.partitions.length ∧
    e.2.2 < (st.partitions.getD e.2.1 []).length ∧
    (st.partitions.getD e.2.1 []).getD e.2.2 [] = bodies.getD e.1 []
  slots : ∀ p, p < st.partitions.length → ∀ i, i < (st.partitions.getD p []).length →
    ∃ b, (b, (p, i)) ∈ st.b2p
  used_some : ∀ e ∈ processed, ∀ k, k ∈ e.2 → (assocFind? k st.used).isSome = true

/-- A one-file collection (`master/a` with body `"a"`) used to witness the
partition-minimality theorem. -/
def c4_witness_collection : FilesCollection :=
  ⟨[[97]], [(strLit "master/a", ⟨⟨0, 0⟩, 0⟩)]⟩

/-- The `FilesPartitions` value `partition_files` computes for
`c4_witness_collection`. -/
def c4_witness_res : FilesPartitions :=
  ⟨[[[97]]], [([], {0})], [([], [([97], ⟨⟨0, 0⟩, 0, 0⟩)])]⟩

/-- The layout condition claimed by the specification for accepted paths,
except that the `<rest>` part is allowed to be empty (see
`c8_empty_rest_accepted`): the path begins with `master/`, or with
`tenants/<name>/` for a slash-free `<name>`. -/
def c8GoodForm (p : Str) : Prop :=
  pyStartswith p (strLit "master/") = true ∨
  ∃ name rest : Str, slash ∉ name ∧ p = strLit "tenants/" ++ name ++ slash :: rest

/-- The layout condition exactly as the claim states it, with a non-empty
`<rest>`. -/
def c8ClaimForm (p : Str) : Prop :=
  pyStartswith p (strLit "master/") = true ∨
  ∃ name rest : Str, slash ∉ name ∧ rest ≠ [] ∧
    p = strLit "tenants/" ++ name ++ slash :: rest

/-- A collection holding the single regular file `tenants/a/` — a path
whose `<rest>` part after `tenants/a/` is empty. -/
def c8_collection : FilesCollection :=
  ⟨[[]], [(strLit "tenants/a/", ⟨⟨0, 0⟩, 0⟩)]⟩

/-- A one-file collection with a well-formed master path, used to witness
`c8_layout_classification`. -/
def c8_witness_collection : FilesCollection :=
  ⟨[[97]], [(strLit "master/a", ⟨⟨0, 0⟩, 0⟩)]⟩

/-- A collection exhibiting the orphan-body quirk of `partition_files`:
the paths `master/x` and `tenants//x` are distinct dictionary keys, yet
both classify to principal `""` and relative name `x`, so the final loop's
nested dictionary assignment overwrites the first emitted item with the
second and the partition slot of the first body is left unreferenced. -/
def c9cex : FilesCollection :=
  ⟨[strLit "b0", strLit "b1"],
   [(strLit "master/x", ⟨⟨0, 0⟩, 0⟩), (strLit "tenants//x", ⟨⟨0, 0⟩, 1⟩)]⟩

/-- The `FilesPartitions` value `partition_files` computes for `c9cex`:
partition 0 holds both bodies, but only slot `(0, 1)` is referenced by the
emitted items. -/
def c9cexRes : FilesPartitions :=
  ⟨[[strLit "b0", strLit "b1"]], [([], {0})],
   [([], [(strLit "x", ⟨⟨0, 0⟩, 0, 1⟩)])]⟩

/-- A two-file collection (`master/a`, `tenants/t/b` sharing one body)
used to witness the no-orphan theorem. -/
def c9_witness_collection : FilesCollection :=
  ⟨[[97]],
   [(strLit "master/a", ⟨⟨0, 0⟩, 0⟩), (strLit "tenants/t/b", ⟨⟨0, 0⟩, 0⟩)]⟩

/-- The `FilesPartitions` value `partition_files` computes for
`c9_witness_collection`. -/
def c9_witness_res : FilesPartitions :=
  ⟨[[[97]]], [([], {0}), ([116], {0})],
   [([], [([97], ⟨⟨0, 0⟩, 0, 0⟩)]), ([116], [([98], ⟨⟨0, 0⟩, 0, 0⟩)])]⟩

/-- Source `TenantKeys` (`_crypto.py` line 448): the per-tenant key
record handed across packs. -/
structure TenantKeys where
  tenant_name : Str
  key_id : Nat
  writer_key : Bytes
  reader_key : Bytes
deriving DecidableEq

/-- The plaintext tenant record built by `CryptoBlob.collect`
(`_crypto.py` lines 569-576) before avro serialization and asymmetric
encryption: the master partition keys with holes for partitions the
tenant does not use, plus the tenant's own file mapping. -/
structure TenantData where
  partition_keys : List Bytes
  files : List (Str × FilesPartitionsItem)
deriving DecidableEq

/-- The tenant-record comprehension of `CryptoBlob.collect`
(`_crypto.py` lines 571-576): `partition_keys[i]` is kept when
`i ∈ used_partitions[tenant_name]` and replaced by the empty byte string
otherwise (Python dict indexing modelled by `getD ∅`; the lookup is
proved to succeed for every tenant present in `files`). -/
def tenantRecord (partition_keys : List Bytes) (partitioned : FilesPartitions)
    (tenant_name : Str) (tenant_files_data : List (Str × FilesPartitionsItem)) :
    TenantData :=
  ⟨partition_keys.enum.map (fun e =>
      if e.1 ∈ (assocFind? tenant_name partitioned.used_partitions).getD ∅
      then e.2 else []),
   tenant_files_data⟩

/-- State of the key-issuing loop of `CryptoBlob.collect`
(`_crypto.py` lines 529-541): the blob-wide `max_id` counter, the
`tenants_keys_by_names` dict, and the number of fresh keypairs drawn so
far (indexing the parameterized `asymm_new_keypair` supply). -/
structure IssueSt where
  max_id : Nat
  known : List (Str × TenantKeys)
  minted : Nat

/-- One iteration of the key-issuing loop of `CryptoBlob.collect`
(`_crypto.py` lines 530-541): skip the master principal, keep existing
tenants untouched, and mint a fresh `TenantKeys` under the incremented
`max_id` for a new tenant. -/
def issueStep (supply : Nat → Bytes × Bytes) (st : IssueSt) (i : Str) : IssueSt :=
  if i = [] then st
  else
    match assocFind? i st.known with
    | some _ => st
    | none =>
      ⟨st.max_id + 1,
       dictInsert st.known i
         ⟨i, st.max_id + 1, (supply st.minted).1, (supply st.minted).2⟩,
       st.minted + 1⟩

/-- The key-issuing loop of `CryptoBlob.collect` over the principal names
of `partitioned.files`, with `asymm_new_keypair` parameterized as a
supply of keypairs. -/
def issueKeys (supply : Nat → Bytes × Bytes) (names : List Str) (st : IssueSt) :
    IssueSt :=
  names.foldl (issueStep supply) st

/-- The `tenants_keys_by_names` dict seeded from `existing_tenants_keys`
(`_crypto.py` line 528). -/
def keysByNames (existing : List TenantKeys) : List (Str × TenantKeys) :=
  existing.foldl (fun acc tk => dictInsert acc tk.tenant_name tk) []

/-- `nacl.secret.SecretBox.KEY_SIZE`: 32 bytes. -/
def KEY_SIZE : Nat := 32

/-- Model of the NaCl primitives used by `_crypto.py`, parameterized:
symmetric `SecretBox` encrypt/decrypt, public-key derivation, `SealedBox`
encrypt/decrypt, Ed25519 sign/verify and verify-key derivation.  The
roundtrip contracts of the library are hypotheses of the theorems that
need them. -/
structure NaclModel where
  boxEncrypt : Bytes → Bytes → Bytes
  boxDecrypt : Bytes → Bytes → Except Err Bytes
  pub : Bytes → Bytes
  sealedEnc : Bytes → Bytes → Bytes
  sealedDec : Bytes → Bytes → Except Err Bytes
  sign : Bytes → Bytes → Bytes
  verify : Bytes → Bytes → Except Err Bytes
  verifyKey : Bytes → Bytes

/-- Source `encrypt` (`_crypto.py` lines 88-90): assert the key size,
then apply the symmetric box. -/
def encrypt (m : NaclModel) (blob key : Bytes) : Except Err Bytes :=
  if key.length = KEY_SIZE then .ok (m.boxEncrypt key blob)
  else .error .ASSERTION_ERROR

/-- Source `decrypt` (`_crypto.py` lines 93-95): assert the key size,
then open the symmetric box. -/
def decrypt (m : NaclModel) (blob key : Bytes) : Except Err Bytes :=
  if key.length = KEY_SIZE then m.boxDecrypt key blob
  else .error .ASSERTION_ERROR

/-- `struct.Struct("!H").pack`: two big-endian bytes. -/
def u16be (n : Nat) : Bytes := [n / 256, n % 256]

/-- Source `asymm_new_keypair` (`_crypto.py` lines 106-114) with the two
random key generations parameterized by `rpriv` (the reader private key)
and `sk` (the signing key): the writer key packs the reader public key
with the signing key, the reader key packs the reader private key with
the verify key. -/
def asymm_new_keypair (m : NaclModel) (rpriv sk : Bytes) : Bytes × Bytes :=
  (m.pub rpriv ++ sk, rpriv ++ m.verifyKey sk)

/-- Source `asymm_encrypt` (`_crypto.py` lines 117-131) with the random
ephemeral key parameterized as `ek`: seal the ephemeral key to the reader
public key, symmetrically encrypt the signed blob under it, and frame
with the big-endian 16-bit length of the sealed key. -/
def asymm_encrypt (m : NaclModel) (blob writer_key ek : Bytes) : Bytes :=
  let rpub := writer_key.take 32
  let sk := writer_key.drop 32
  let eek := m.sealedEnc rpub ek
  let esb := m.boxEncrypt ek (m.sign sk blob)
  u16be eek.length ++ eek ++ esb

/-- Source `asymm_decrypt` (`_crypto.py` lines 134-146): reverse the
length framing, open the sealed box with the private key, symmetrically
decrypt with the recovered ephemeral key, then verify the signature. -/
def asymm_decrypt (m : NaclModel) (blob reader_key : Bytes) : Except Err Bytes :=
  let sz := blob.getD 0 0 * 256 + blob.getD 1 0
  let eek := (blob.drop 2).take sz
  let esb := blob.drop (2 + sz)
  let rpriv := reader_key.take 32
  let vk := reader_key.drop 32
  match m.sealedDec rpriv eek with
  | .error e => .error e
  | .ok ek =>
    match m.boxDecrypt ek esb with
    | .error e => .error e
    | .ok signed => m.verify vk signed

/-- A degenerate instance of the NaCl model (every primitive is the
identity), used to witness the asymmetric roundtrip theorem. -/
def naclToy : NaclModel :=
  ⟨fun _ msg => msg, fun _ c => .ok c, id, fun _ msg => msg, fun _ c => .ok c,
   fun _ msg => msg, fun _ s => .ok s, id⟩

/-- Decimal representation of a natural number, as Python `str`. -/
def natToStr (n : Nat) : Str :=
  if n = 0 then [48] else ((Nat.digits 10 n).reverse).map (fun d => d + 48)

/-- Python `int` applied to a decimal digit string. -/
def strToNat (s : Str) : Nat :=
  s.foldl (fun a c => a * 10 + (c - 48)) 0

/-- An avro schemaless codec for one schema, parameterized (fastavro is
an external library): `write` serializes a value, `read` parses a prefix
of the stream and returns the value with the remaining bytes. -/
structure AvroCodec (α : Type) where
  write : α → Bytes
  read : Bytes → Except Err (α × Bytes)

/-- The version-1 `blob` avro record (`crypto_schemas.json`): `max_id`,
the sealed `master`, the sealed `partitions`, and the `tenants` map keyed
by decimal strings. -/
structure BlobData where
  max_id : Nat
  master : Bytes
  partitions : List Bytes
  tenants : List (Str × Bytes)

/-- Source `CryptoBlob` state (`_crypto.py` lines 475-487). -/
structure CryptoBlobSt where
  version : Int
  max_id : Nat
  xpartitions : List Bytes
  xmaster : Bytes
  xtenants : List (Nat × Bytes)

/-- Source `CryptoBlob.dump_to_blob` (`_crypto.py` lines 502-513): the
header then the `blob` record, tenant keys dumped as decimal strings. -/
def dump_to_blob (hcodec : AvroCodec Int) (bcodec : AvroCodec BlobData)
    (cb : CryptoBlobSt) : Bytes :=
  hcodec.write cb.version ++
    bcodec.write ⟨cb.max_id, cb.xmaster, cb.xpartitions,
      cb.xtenants.map (fun e => (natToStr e.1, e.2))⟩

/-- Source `CryptoBlob.load_from_blob` (`_crypto.py` lines 489-500): read
the header and the `blob` record, parse the tenant keys back to integers;
a version other than 1 hits `assert 0`. -/
def load_from_blob (hcodec : AvroCodec Int) (bcodec : AvroCodec BlobData)
    (blob : Bytes) : Except Err CryptoBlobSt :=
  match hcodec.read blob with
  | .error e => .error e
  | .ok (version, rest) =>
    match bcodec.read rest with
    | .error e => .error e
    | .ok (data, _) =>
      if version = 1 then
        .ok ⟨version, data.max_id, data.partitions, data.master,
          data.tenants.map (fun e => (strToNat e.1, e.2))⟩
      else .error .ASSERTION_ERROR

/-- A header codec instance for the witness: one unbounded stream token
per value, via the standard encoding of `Int`. -/
def hcodecToy : AvroCodec Int :=
  ⟨fun v => [Encodable.encode v],
   fun b =>
     match b with
     | [] => .error .ASSERTION_ERROR
     | n :: rest =>
       match (Encodable.decode n : Option Int) with
       | some v => .ok (v, rest)
       | none => .error .ASSERTION_ERROR⟩

/-- The fields of a `BlobData` as a tuple, for the witness codec. -/
def blobDataTuple (x : BlobData) : Nat × Bytes × List Bytes × List (Str × Bytes) :=
  (x.max_id, x.master, x.partitions, x.tenants)

/-- A `blob`-record codec instance for the witness: one unbounded stream
token per record, via the standard encoding of the field tuple. -/
def bcodecToy : AvroCodec BlobData :=
  ⟨fun x => [Encodable.encode (blobDataTuple x)],
   fun b =>
     match b with
     | [] => .error .ASSERTION_ERROR
     | n :: rest =>
       match (Encodable.decode n :
           Option (Nat × Bytes × List Bytes × List (Str × Bytes))) with
       | some t => .ok (⟨t.1, t.2.1, t.2.2.1, t.2.2.2⟩, rest)
       | none => .error .ASSERTION_ERROR⟩

/-- The plaintext master record built by `CryptoBlob.collect`
(`_crypto.py` lines 556-560): the partition keys, the nested files dict
(per-item `to_data` kept at the record level) and the tenant key
records. -/
structure MasterData where
  partition_keys : List Bytes
  files : List (Str × List (Str × FilesPartitionsItem))
  tenants_keys : List TenantKeys

/-- Fallible map, modelling a Python comprehension whose body may
raise. -/
def mapExcept {α β : Type} (f : α → Except Err β) : List α → Except Err (List β)
  | [] => .ok []
  | a :: t =>
    match f a with
    | .error e => .error e
    | .ok b =>
      match mapExcept f t with
      | .error e => .error e
      | .ok bs => .ok (b :: bs)

/-- The master-path portion of `CryptoBlob.collect` (`_crypto.py` lines
515-565) at the data level: partition the collection, seal each
partition's serialized body list under its fresh key (`new_key`
randomness parameterized as `partition_keys`), build the master record,
seal it under the master key.  The tenant-side sealing and the issued
tenant key records are out of scope here (`tenants_keys` is carried
opaquely). -/
def collect_master (m : NaclModel) (pcodec : AvroCodec (List Bytes))
    (mcodec : AvroCodec MasterData) (c : FilesCollection)
    (partition_keys : List Bytes) (tenants_keys : List TenantKeys)
    (master_key : Bytes) : Except Err (List Bytes × Bytes × MasterData) :=
  match partition_files c with
  | .error e => .error e
  | .ok partitioned =>
    let master_data : MasterData := ⟨partition_keys, partitioned.files, tenants_keys⟩
    match mapExcept (fun kp => encrypt m (pcodec.write kp.2) kp.1)
        (partition_keys.zip partitioned.partitions) with
    | .error e => .error e
    | .ok xpartitions =>
      match encrypt m (mcodec.write master_data) master_key with
      | .error e => .error e
      | .ok xmaster => .ok (xpartitions, xmaster, master_data)

/-- Source `CryptoBlob.unseal_master` (`_crypto.py` lines 585-590):
decrypt the sealed master record and deserialize it. -/
def unseal_master (m : NaclModel) (mcodec : AvroCodec MasterData)
    (xmaster master_key : Bytes) : Except Err MasterData :=
  match decrypt m xmaster master_key with
  | .error e => .error e
  | .ok plain =>
    match mcodec.read plain with
    | .error e => .error e
    | .ok md => .ok md.1

/-- The effect of `writeout` (`_crypto.py` lines 411-444) on one file: a
regular file with body bytes and mtime, a relative symlink, or an
absolute symlink whose target is given relative to the destination root
(`dest / (prefix + body)`). -/
inductive WOut where
  | file (path : Str) (body : Bytes) (mtime : Int)
  | link (path : Str) (target : Str)
  | alink (path : Str) (target : Str)
deriving DecidableEq

/-- The path a `WOut` is written at. -/
def woPath : WOut → Str
  | .file p _ _ => p
  | .link p _ => p
  | .alink p _ => p

/-- Source `writeout` (`_crypto.py` lines 411-444) as the list of
filesystem effects it performs, in iteration order. -/
def writeout (partitions : List (List Bytes))
    (files : List (Str × List (Str × FilesPartitionsItem))) : List WOut :=
  (files.map (fun pv => pv.2.map (fun fv =>
    let path := pv.1 ++ fv.1
    let body := (partitions.getD fv.2.partition_id []).getD fv.2.body_id []
    if fv.2.metadata.flags &&& SYMLINK ≠ 0 then
      if fv.2.metadata.flags &&& SYMLINK_ABS ≠ 0 then WOut.alink path (pv.1 ++ body)
      else WOut.link path body
    else WOut.file path body fv.2.metadata.mtime_ns))).join

/-- The per-principal path prefix used by `CryptoBlob.writeout_master`
(`_crypto.py` line 607): `tenants/<k>/` for a tenant, `master/` for the
master principal. -/
def woPrefix (k : Str) : Str :=
  if k = [] then strLit "master/" else strLit "tenants/" ++ k ++ [slash]

/-- Source `CryptoBlob.writeout_master` (`_crypto.py` lines 592-614):
unseal each partition with its key from the master record, rebuild the
prefixed files dict, and hand both to `writeout`. -/
def writeout_master (m : NaclModel) (pcodec : AvroCodec (List Bytes))
    (md : MasterData) (xpartitions : List Bytes) : Except Err (List WOut) :=
  match mapExcept (fun kp =>
      match decrypt m kp.2 kp.1 with
      | .error e => .error e
      | .ok plain =>
        match pcodec.read plain with
        | .error e => .error e
        | .ok p => .ok p.1)
    (md.partition_keys.zip xpartitions) with
  | .error e => .error e
  | .ok partitions =>
    .ok (writeout partitions (md.files.map (fun kv => (woPrefix kv.1, kv.2))))

/-- The pack → unseal → writeout pipeline of the C2 claim. -/
def packUnsealWriteout (m : NaclModel) (pcodec : AvroCodec (List Bytes))
    (mcodec : AvroCodec MasterData) (c : FilesCollection)
    (partition_keys : List Bytes) (tenants_keys : List TenantKeys)
    (master_key : Bytes) : Except Err (List WOut) :=
  match collect_master m pcodec mcodec c partition_keys tenants_keys master_key with
  | .error e => .error e
  | .ok x =>
    match unseal_master m mcodec x.2.1 master_key with
    | .error e => .error e
    | .ok md => writeout_master m pcodec md x.1

/-- Components of a path with trailing empty components removed: the
normal form under which `master/` and `master` denote the same
filesystem path. -/
def dropTrailingEmpty (l : List Str) : List Str :=
  (l.reverse.dropWhile (fun t => t.isEmpty)).reverse

instance : Encodable FileMetadata :=
  Encodable.ofEquiv (Int × Nat)
    ⟨fun x => (x.mtime_ns, x.flags), fun t => ⟨t.1, t.2⟩,
     fun x => rfl, fun t => rfl⟩

instance : Encodable FilesPartitionsItem :=
  Encodable.ofEquiv (FileMetadata × Nat × Nat)
    ⟨fun x => (x.metadata, x.partition_id, x.body_id), fun t => ⟨t.1, t.2.1, t.2.2⟩,
     fun x => rfl, fun t => rfl⟩

instance : Encodable TenantKeys :=
  Encodable.ofEquiv (Str × Nat × Bytes × Bytes)
    ⟨fun x => (x.tenant_name, x.key_id, x.writer_key, x.reader_key),
     fun t => ⟨t.1, t.2.1, t.2.2.1, t.2.2.2⟩, fun x => rfl, fun t => rfl⟩

instance : Encodable MasterData :=
  Encodable.ofEquiv (List Bytes × List (Str × List (Str × FilesPartitionsItem)) ×
      List TenantKeys)
    ⟨fun x => (x.partition_keys, x.files, x.tenants_keys),
     fun t => ⟨t.1, t.2.1, t.2.2⟩, fun x => rfl, fun t => rfl⟩

/-- A partition codec instance for the witness, one unbounded stream
token per value. -/
def pcodecToy : AvroCodec (List Bytes) :=
  ⟨fun x => [Encodable.encode x],
   fun b =>
     match b with
     | [] => .error .ASSERTION_ERROR
     | n :: rest =>
       match (Encodable.decode n : Option (List Bytes)) with
       | some v => .ok (v, rest)
       | none => .error .ASSERTION_ERROR⟩

/-- A master-record codec instance for the witness, one unbounded stream
token per value. -/
def mcodecToy : AvroCodec MasterData :=
  ⟨fun x => [Encodable.encode x],
   fun b =>
     match b with
     | [] => .error .ASSERTION_ERROR
     | n :: rest =>
       match (Encodable.decode n : Option MasterData) with
       | some v => .ok (v, rest)
       | none => .error .ASSERTION_ERROR⟩

/-- C1: the claim says packing a tree with the symlink
`master/link -> ../tenants/one/secret` fails with `OUT_OF_TREE`, because
relative-link traversal is simulated from the file's directory.  The code
instead seeds the traversal with `fname.split("/")` — the file's full
path including the file name — so the first `..` merely pops `link` and
the escape to `tenants/one/secret` is accepted: `partition_files`
succeeds on this input. -/
theorem c1_relative_symlink_escape_accepted :
    (partition_files c1_collection).isOk = true := by decide

theorem insLe_perm {α : Type} (le : α → α → Bool) (x : α) (l : List α) :
    (insLe le x l).Perm (x :: l) := by
  induction l with
  | nil => exact List.Perm.refl _
  | cons y ys ih =>
    by_cases h : le x y
    · simp [insLe, h]
    · simp only [insLe, h, if_false]
      exact (ih.cons y).trans (List.Perm.swap x y ys)

theorem sortLe_perm {α : Type} (le : α → α → Bool) (l : List α) :
    (sortLe le l).Perm l := by
  induction l with
  | nil => exact List.Perm.refl _
  | cons x xs ih =>
    have : sortLe le (x :: xs) = insLe le x (sortLe le xs) := rfl
    rw [this]
    exact (insLe_perm le x (sortLe le xs)).trans (ih.cons x)

theorem assocFind?_mem {κ ν : Type} [DecidableEq κ] {l : List (κ × ν)} {k : κ} {v : ν}
    (h : assocFind? k l = some v) : (k, v) ∈ l := by
  induction l with
  | nil => simp [assocFind?] at h
  | cons e rest ih =>
    by_cases he : e.1 = k
    · simp only [assocFind?, he, if_true] at h
      exact List.mem_cons.mpr (Or.inl (Prod.ext he (Option.some.inj h)).symm)
    · simp only [assocFind?, he, if_false] at h
      exact List.mem_cons_of_mem _ (ih h)

theorem assocFind?_of_mem_nodup {κ ν : Type} [DecidableEq κ] {l : List (κ × ν)}
    (hnd : (l.map Prod.fst).Nodup) {k : κ} {v : ν} (h : (k, v) ∈ l) :
    assocFind? k l = some v := by
  induction l with
  | nil => exact absurd h (List.not_mem_nil _)
  | cons e rest ih =>
    rcases List.mem_cons.mp h with h1 | h1
    · simp [assocFind?, ← h1]
    · have hk : k ∈ rest.map Prod.fst := List.mem_map.mpr ⟨(k, v), h1, rfl⟩
      have he : ¬ e.1 = k := by
        intro hek
        exact (List.nodup_cons.mp hnd).1 (hek ▸ hk)
      simp only [assocFind?, he, if_false]
      exact ih (List.nodup_cons.mp hnd).2 h1

theorem assocFind?_isSome_iff {κ ν : Type} [DecidableEq κ] {l : List (κ × ν)} {k : κ} :
    (assocFind? k l).isSome = true ↔ k ∈ l.map Prod.fst := by
  induction l with
  | nil => simp [assocFind?]
  | cons e rest ih =>
    by_cases he : e.1 = k
    · simp [assocFind?, he]
    · simp [assocFind?, he, ih, Ne.symm he]

theorem assocFind?_append_some {κ ν : Type} [DecidableEq κ] {l₁ : List (κ × ν)}
    (l₂ : List (κ × ν)) {k : κ} {v : ν} (h : assocFind? k l₁ = some v) :
    assocFind? k (l₁ ++ l₂) = some v := by
  induction l₁ with
  | nil => simp [assocFind?] at h
  | cons e rest ih =>
    by_cases he : e.1 = k
    · simp only [assocFind?, he, if_true] at h
      simp [List.cons_append, assocFind?, he, h]
    · simp only [assocFind?, he, if_false] at h
      simp only [List.cons_append, assocFind?, he, if_false]
      exact ih h

theorem assocFind?_append_none {κ ν : Type} [DecidableEq κ] {l₁ : List (κ × ν)}
    (l₂ : List (κ × ν)) {k : κ} (h : assocFind? k l₁ = none) :
    assocFind? k (l₁ ++ l₂) = assocFind? k l₂ := by
  induction l₁ with
  | nil => simp
  | cons e rest ih =>
    by_cases he : e.1 = k
    · simp [assocFind?, he] at h
    · simp only [assocFind?, he, if_false] at h
      simp only [List.cons_append, assocFind?, he, if_false]
      exact ih h

theorem assocUpdate_fst {κ ν : Type} [DecidableEq κ] (l : List (κ × ν)) (k : κ)
    (f : ν → ν) : (assocUpdate l k f).map Prod.fst = l.map Prod.fst := by
  induction l with
  | nil => rfl
  | cons e rest ih =>
    by_cases he : e.1 = k
    · simp only [assocUpdate, List.map_cons, he, if_true] at ih ⊢
      rw [ih]
    · simp only [assocUpdate, List.map_cons, he, if_false] at ih ⊢
      rw [ih]

theorem assocFind?_update_self {κ ν : Type} [DecidableEq κ] (l : List (κ × ν)) (k : κ)
    (f : ν → ν) : assocFind? k (assocUpdate l k f) = (assocFind? k l).map f := by
  induction l with
  | nil => rfl
  | cons e rest ih =>
    by_cases he : e.1 = k
    · simp [assocUpdate, assocFind?, he]
    · simp only [assocUpdate, List.map_cons, he, if_false, assocFind?]
      exact ih

theorem assocFind?_update_ne {κ ν : Type} [DecidableEq κ] (l : List (κ × ν)) {k : κ}
    (f : ν → ν) {q : κ} (h : q ≠ k) :
    assocFind? q (assocUpdate l k f) = assocFind? q l := by
  induction l with
  | nil => rfl
  | cons e rest ih =>
    by_cases he : e.1 = k
    · have hq : ¬ k = q := fun hh => h hh.symm
      simp [assocUpdate, assocFind?, he, hq]
      exact ih
    · simp only [assocUpdate, List.map_cons, he, if_false, assocFind?]
      by_cases hq : e.1 = q
      · simp [hq]
      · simp only [hq, if_false]
        exact ih

theorem assocFind?_dictInsert_self {κ ν : Type} [DecidableEq κ] (l : List (κ × ν))
    (k : κ) (v : ν) : assocFind? k (dictInsert l k v) = some v := by
  unfold dictInsert
  cases hf : assocFind? k l with
  | some w =>
    simp only [hf, Option.isSome_some, if_true]
    rw [assocFind?_update_self, hf]
    rfl
  | none =>
    simp only [hf, Option.isSome_none, Bool.false_eq_true, if_false]
    rw [assocFind?_append_none _ hf]
    simp [assocFind?]

theorem assocFind?_dictInsert_ne {κ ν : Type} [DecidableEq κ] (l : List (κ × ν))
    (k : κ) (v : ν) {q : κ} (h : q ≠ k) :
    assocFind? q (dictInsert l k v) = assocFind? q l := by
  unfold dictInsert
  cases hf : assocFind? k l with
  | some w =>
    simp only [hf, Option.isSome_some, if_true]
    exact assocFind?_update_ne l _ h
  | none =>
    simp only [hf, Option.isSome_none, Bool.false_eq_true, if_false]
    cases hq : assocFind? q l with
    | some w => rw [assocFind?_append_some _ hq]
    | none =>
      rw [assocFind?_append_none _ hq]
      have hkq : ¬ k = q := fun hh => h hh.symm
      simp [assocFind?, hkq, hq]

theorem dictInsert_fst_nodup {κ ν : Type} [DecidableEq κ] {l : List (κ × ν)}
    (hnd : (l.map Prod.fst).Nodup) (k : κ) (v : ν) :
    ((dictInsert l k v).map Prod.fst).Nodup := by
  unfold dictInsert
  cases hf : assocFind? k l with
  | some w =>
    simp only [hf, Option.isSome_some, if_true]
    rw [assocUpdate_fst]
    exact hnd
  | none =>
    simp only [hf, Option.isSome_none, Bool.false_eq_true, if_false]
    have hk : k ∉ l.map Prod.fst := by
      intro hm
      have := assocFind?_isSome_iff.mpr hm
      rw [hf] at this
      exact absurd this (by simp)
    simp only [List.map_append, List.map_cons, List.map_nil]
    rw [List.nodup_append]
    refine ⟨hnd, List.nodup_singleton k, ?_⟩
    intro a ha hb
    rw [List.mem_singleton] at hb
    exact hk (hb ▸ ha)

theorem appendDedup_nodup {α : Type} [DecidableEq α] (l : List α) :
    ∀ acc : List α, acc.Nodup → (appendDedup acc l).Nodup := by
  induction l with
  | nil => intro acc h; exact h
  | cons x xs ih =>
    intro acc h
    show (appendDedup (if x ∈ acc then acc else acc ++ [x]) xs).Nodup
    by_cases hx : x ∈ acc
    · simp only [hx, if_true]
      exact ih acc h
    · simp only [hx, if_false]
      refine ih _ ?_
      simp [List.nodup_append, h, hx]

theorem appendDedup_toFinset {α : Type} [DecidableEq α] (l : List α) :
    ∀ acc : List α, (appendDedup acc l).toFinset = acc.toFinset ∪ l.toFinset := by
  induction l with
  | nil => intro acc; simp [appendDedup]
  | cons x xs ih =>
    intro acc
    show (appendDedup (if x ∈ acc then acc else acc ++ [x]) xs).toFinset = _
    by_cases hx : x ∈ acc
    · simp only [hx, if_true]
      rw [ih acc]
      ext a
      simp only [Finset.mem_union, List.mem_toFinset, List.mem_cons]
      constructor
      · rintro (h1 | h1)
        · exact Or.inl h1
        · exact Or.inr (Or.inr h1)
      · rintro (h1 | h1 | h1)
        · exact Or.inl h1
        · exact Or.inl (h1 ▸ hx)
        · exact Or.inr h1
    · simp only [hx, if_false]
      rw [ih (acc ++ [x])]
      ext a
      simp only [Finset.mem_union, List.mem_toFinset, List.mem_append, List.mem_cons,
        List.mem_singleton, List.not_mem_nil, or_false]
      exact or_assoc

theorem kbbAdd_find (kbb : List (Nat × Finset Str)) (b₀ : Nat) (k : Str) (b : Nat) :
    assocFind? b (kbbAdd kbb b₀ k) =
      if b = b₀ then
        some (match assocFind? b₀ kbb with
          | some s => insert k s
          | none => {k})
      else assocFind? b kbb := by
  unfold kbbAdd
  cases hf : assocFind? b₀ kbb with
  | some s =>
    by_cases hb : b = b₀
    · subst hb
      rw [assocFind?_update_self, hf]
      simp
    · rw [assocFind?_update_ne _ _ hb]
      simp [hb]
  | none =>
    by_cases hb : b = b₀
    · subst hb
      rw [assocFind?_append_none _ hf]
      simp [assocFind?]
    · simp only [hb, if_false]
      cases hq : assocFind? b kbb with
      | some w => rw [assocFind?_append_some _ hq]
      | none =>
        rw [assocFind?_append_none _ hq]
        have hb0 : ¬ b₀ = b := fun hh => hb hh.symm
        simp [assocFind?, hb0]

theorem kbbAdd_fst (kbb : List (Nat × Finset Str)) (b₀ : Nat) (k : Str) :
    (kbbAdd kbb b₀ k).map Prod.fst =
      if b₀ ∈ kbb.map Prod.fst then kbb.map Prod.fst else kbb.map Prod.fst ++ [b₀] := by
  unfold kbbAdd
  cases hf : assocFind? b₀ kbb with
  | some s =>
    have hm : b₀ ∈ kbb.map Prod.fst := assocFind?_isSome_iff.mp (by rw [hf]; rfl)
    simp [hm, assocUpdate_fst]
  | none =>
    have hm : b₀ ∉ kbb.map Prod.fst := by
      intro hmm
      have hs := assocFind?_isSome_iff.mpr hmm
      rw [hf] at hs
      exact absurd hs (by simp)
    simp [hm]

theorem kbbFold_fst_nodup (pfiles : List PFile) :
    ∀ kbb : List (Nat × Finset Str),
    (kbb.map Prod.fst).Nodup → ((kbbFold kbb pfiles).map Prod.fst).Nodup := by
  induction pfiles with
  | nil => intro kbb h; exact h
  | cons pf rest ih =>
    intro kbb h
    show ((kbbFold (kbbAdd kbb pf.body_id pf.key) rest).map Prod.fst).Nodup
    refine ih _ ?_
    rw [kbbAdd_fst]
    by_cases hm : pf.body_id ∈ kbb.map Prod.fst
    · simp [hm, h]
    · simp only [hm, if_false]
      rw [List.nodup_append]
      refine ⟨h, List.nodup_singleton _, ?_⟩
      intro a ha hb2
      rw [List.mem_singleton] at hb2
      exact hm (hb2 ▸ ha)

theorem visSet_nil (b : Nat) : visSet [] b = ∅ := rfl

theorem visSet_cons (pf : PFile) (rest : List PFile) (b : Nat) :
    visSet (pf :: rest) b =
      if pf.body_id = b then insert pf.key (visSet rest b) else visSet rest b := by
  by_cases hb : pf.body_id = b
  · simp [visSet, List.filter_cons, hb]
  · simp [visSet, List.filter_cons, hb]

theorem kbbFold_find (pfiles : List PFile) :
    ∀ (kbb : List (Nat × Finset Str)) (b : Nat),
    assocFind? b (kbbFold kbb pfiles) =
      match assocFind? b kbb with
      | some s => some (s ∪ visSet pfiles b)
      | none =>
        if b ∈ pfiles.map (fun pf => pf.body_id) then some (visSet pfiles b) else none := by
  induction pfiles with
  | nil =>
    intro kbb b
    cases hf : assocFind? b kbb with
    | some s => simp [kbbFold, hf, visSet_nil]
    | none => simp [kbbFold, hf]
  | cons pf rest ih =>
    intro kbb b
    show assocFind? b (kbbFold (kbbAdd kbb pf.body_id pf.key) rest) = _
    rw [ih, kbbAdd_find]
    by_cases hb : b = pf.body_id
    · subst hb
      cases hf : assocFind? pf.body_id kbb with
      | some s =>
        simp [visSet_cons, Finset.insert_union, Finset.union_insert]
      | none =>
        simp [visSet_cons, Finset.insert_eq]
    · simp only [if_neg hb]
      have hb' : ¬ pf.body_id = b := fun hh => hb hh.symm
      cases hf : assocFind? b kbb with
      | some s => simp [visSet_cons, hb']
      | none =>
        simp only [visSet_cons, if_neg hb', List.map_cons, List.mem_cons]
        simp [hb]

theorem kbbFold_mem_iff (pfiles : List PFile) {b : Nat} {s : Finset Str} :
    (b, s) ∈ kbbFold [] pfiles ↔
      b ∈ pfiles.map (fun pf => pf.body_id) ∧ s = visSet pfiles b := by
  have hnd : ((kbbFold [] pfiles).map Prod.fst).Nodup :=
    kbbFold_fst_nodup pfiles [] (by simp)
  constructor
  · intro h
    have hf := assocFind?_of_mem_nodup hnd h
    rw [kbbFold_find pfiles [] b] at hf
    simp only [assocFind?] at hf
    by_cases hm : b ∈ pfiles.map (fun pf => pf.body_id)
    · rw [if_pos hm] at hf
      exact ⟨hm, (Option.some.inj hf).symm⟩
    · rw [if_neg hm] at hf
      exact absurd hf (by simp)
  · rintro ⟨hm, rfl⟩
    apply assocFind?_mem (l := kbbFold [] pfiles)
    rw [kbbFold_find pfiles [] b]
    simp only [assocFind?]
    rw [if_pos hm]

theorem kbbFold_values_toFinset (pfiles : List PFile) :
    ((kbbFold [] pfiles).map Prod.snd).toFinset = (bodyIds pfiles).image (visSet pfiles) := by
  ext s
  simp only [List.mem_toFinset, List.mem_map, Finset.mem_image, bodyIds]
  constructor
  · rintro ⟨⟨b, s'⟩, hmem, hs⟩
    obtain ⟨hm, hv⟩ := (kbbFold_mem_iff pfiles).mp hmem
    obtain ⟨a, ha, hab⟩ := List.mem_map.mp hm
    exact ⟨b, ⟨a, ha, hab⟩, by rw [← hv]; exact hs⟩
  · rintro ⟨b, ⟨a, ha, hab⟩, rfl⟩
    exact ⟨(b, visSet pfiles b),
      (kbbFold_mem_iff pfiles).mpr ⟨List.mem_map.mpr ⟨a, ha, hab⟩, rfl⟩, rfl⟩

theorem processFiles_kbb (l : List (Str × FilesCollectionItem)) :
    ∀ bodies kbb r, processFiles bodies kbb l = .ok r → r.2.1 = kbbFold kbb r.2.2 := by
  induction l with
  | nil =>
    intro bodies kbb r h
    have hr : (bodies, kbb, ([] : List PFile)) = r := Except.ok.inj h
    rw [← hr]
    rfl
  | cons hd tl ih =>
    intro bodies kbb r h
    obtain ⟨fname, f⟩ := hd
    cases hcl : classifyFile fname with
    | none => simp [processFiles, hcl] at h
    | some kn =>
      by_cases hflag : f.metadata.flags &&& SYMLINK ≠ 0
      · rw [show processFiles bodies kbb ((fname, f) :: tl) =
            (match validate_symlink bodies f.metadata.flags kn.1 kn.2 f.body_id with
             | .error e => .error e
             | .ok bb =>
              match processFiles bb.2 (kbbAdd kbb bb.1 kn.1) tl with
              | .error e => .error e
              | .ok r => .ok (r.1, r.2.1, ⟨kn.1, kn.2, f, bb.1⟩ :: r.2.2)) from by
          simp [processFiles, hcl, hflag]] at h
        cases hv : validate_symlink bodies f.metadata.flags kn.1 kn.2 f.body_id with
        | error e => rw [hv] at h; exact absurd h (by simp)
        | ok bb =>
          rw [hv] at h
          have h2 : (match processFiles bb.2 (kbbAdd kbb bb.1 kn.1) tl with
              | Except.error e => Except.error e
              | Except.ok r2 => Except.ok (r2.1, r2.2.1,
                  (⟨kn.1, kn.2, f, bb.1⟩ : PFile) :: r2.2.2)) = Except.ok r := h
          cases hr : processFiles bb.2 (kbbAdd kbb bb.1 kn.1) tl with
          | error e => rw [hr] at h2; exact absurd h2 (by simp)
          | ok r2 =>
            rw [hr] at h2
            have hre : (r2.1, r2.2.1, (⟨kn.1, kn.2, f, bb.1⟩ : PFile) :: r2.2.2) = r :=
              Except.ok.inj h2
            rw [← hre]
            exact ih bb.2 (kbbAdd kbb bb.1 kn.1) r2 hr
      · rw [show processFiles bodies kbb ((fname, f) :: tl) =
            (match processFiles bodies (kbbAdd kbb f.body_id kn.1) tl with
             | .error e => .error e
             | .ok r => .ok (r.1, r.2.1, ⟨kn.1, kn.2, f, f.body_id⟩ :: r.2.2)) from by
          simp [processFiles, hcl, hflag]] at h
        cases hr : processFiles bodies (kbbAdd kbb f.body_id kn.1) tl with
        | error e => rw [hr] at h; exact absurd h (by simp)
        | ok r2 =>
          rw [hr] at h
          have hre : (r2.1, r2.2.1, (⟨kn.1, kn.2, f, f.body_id⟩ : PFile) :: r2.2.2) = r :=
            Except.ok.inj h
          rw [← hre]
          exact ih bodies (kbbAdd kbb f.body_id kn.1) r2 hr

theorem getD_of_lt {α : Type} (l : List α) (j : Nat) (d : α) (h : j < l.length) :
    l.getD j d = l.get ⟨j, h⟩ := by
  rw [List.getD_eq_getElem?_getD, List.getElem?_eq_getElem h]
  rfl

theorem getD_set_self {α : Type} (l : List α) (p : Nat) (v : α) (d : α)
    (h : p < l.length) : (l.set p v).getD p d = v := by
  rw [List.getD_eq_getElem?_getD, List.getElem?_set_eq h]
  rfl

theorem getD_set_ne {α : Type} (l : List α) (p : Nat) (v : α) (q : Nat) (d : α)
    (h : ¬ q = p) : (l.set p v).getD q d = l.getD q d := by
  rw [List.getD_eq_getElem?_getD, List.getElem?_set_ne (fun hh => h hh.symm),
    ← List.getD_eq_getElem?_getD]

theorem usedAdd_isSome_self (used : List (Str × Finset Nat)) (k : Str) (pid : Nat) :
    (assocFind? k (usedAdd used k pid)).isSome = true := by
  unfold usedAdd
  cases hf : assocFind? k used with
  | some s =>
    rw [assocFind?_update_self, hf]
    rfl
  | none =>
    rw [assocFind?_append_none _ hf]
    simp [assocFind?]

theorem usedAdd_isSome_mono (used : List (Str × Finset Nat)) (k₀ : Str) (pid : Nat)
    {k : Str} (h : (assocFind? k used).isSome = true) :
    (assocFind? k (usedAdd used k₀ pid)).isSome = true := by
  unfold usedAdd
  cases hf : assocFind? k₀ used with
  | some s =>
    by_cases hk : k = k₀
    · subst hk
      rw [assocFind?_update_self, hf]
      rfl
    · rw [assocFind?_update_ne _ _ hk]
      exact h
  | none =>
    cases hq : assocFind? k used with
    | some w => rw [assocFind?_append_some _ hq]; rfl
    | none => rw [hq] at h; exact absurd h (by simp)

theorem usedAddAll_isSome_mono (keys : List Str) :
    ∀ (used : List (Str × Finset Nat)) (pid : Nat) (k : Str),
    (assocFind? k used).isSome = true →
    (assocFind? k (usedAddAll used keys pid)).isSome = true := by
  induction keys with
  | nil => intro used pid k h; exact h
  | cons x xs ih =>
    intro used pid k h
    exact ih (usedAdd used x pid) pid k (usedAdd_isSome_mono used x pid h)

theorem usedAddAll_isSome_of_mem (keys : List Str) :
    ∀ (used : List (Str × Finset Nat)) (pid : Nat) (k : Str), k ∈ keys →
    (assocFind? k (usedAddAll used keys pid)).isSome = true := by
  induction keys with
  | nil => intro used pid k h; exact absurd h (List.not_mem_nil _)
  | cons x xs ih =>
    intro used pid k h
    rcases List.mem_cons.mp h with h1 | h1
    · subst h1
      exact usedAddAll_isSome_mono xs (usedAdd used k pid) pid k
        (usedAdd_isSome_self used k pid)
    · exact ih (usedAdd used x pid) pid k h1

theorem appendDedup_snoc {α : Type} [DecidableEq α] (acc l : List α) (x : α) :
    appendDedup acc (l ++ [x]) =
      if x ∈ appendDedup acc l then appendDedup acc l else appendDedup acc l ++ [x] := by
  unfold appendDedup
  rw [List.foldl_append]
  rfl

theorem finsetKeys_mem {s : Finset Str} {k : Str} : k ∈ finsetKeys s ↔ k ∈ s := by
  rcases s with ⟨ms, hnd⟩
  revert hnd
  refine Quotient.inductionOn ms (fun l hnd => ?_)
  have hp := (List.perm_insertionSort (fun a b : Str => a ≤ b) l).mem_iff (a := k)
  simpa [finsetKeys, Finset.mem_mk] using hp

theorem allocInv_init (bodies : List Bytes) : AllocInv bodies [] ⟨[], [], [], []⟩ := by
  refine ⟨rfl, rfl, ?_, rfl, ?_, ?_, ?_⟩
  · intro j hj
    exact absurd hj (by simp)
  · intro e he
    exact absurd he (List.not_mem_nil _)
  · intro p hp
    exact absurd hp (by simp)
  · intro e he
    exact absurd he (List.not_mem_nil _)

theorem allocStep_inv (bodies : List Bytes) (processed : List (Nat × Finset Str))
    (st : AllocSt) (e : Nat × Finset Str) (hinv : AllocInv bodies processed st) :
    AllocInv bodies (processed ++ [e]) (allocStep bodies st e) := by
  cases hk : assocFind? e.2 st.k2p with
  | some p =>
    have hmem : (e.2, p) ∈ st.k2p := assocFind?_mem hk
    obtain ⟨⟨j, hj⟩, hget⟩ := List.mem_iff_get.mp hmem
    have hpj : p = j := by
      have hh := hinv.k2p_snd j hj
      rw [getD_of_lt _ _ _ hj, hget] at hh
      exact hh
    have hplt : p < st.k2p.length := hpj ▸ hj
    have hppart : p < st.partitions.length := hinv.len_eq ▸ hplt
    have hpne : ¬ p = st.partitions.length := Nat.ne_of_lt hppart
    have hk2p : (allocStep bodies st e).k2p = st.k2p := by
      simp [allocStep, hk]
    have hparts : (allocStep bodies st e).partitions =
        st.partitions.set p ((st.partitions.getD p []) ++ [bodies.getD e.1 []]) := by
      simp [allocStep, hk, hpne]
    have hb2p : (allocStep bodies st e).b2p =
        st.b2p ++ [(e.1, (p, (st.partitions.getD p []).length))] := by
      simp [allocStep, hk, hpne]
    have hused : (allocStep bodies st e).used =
        usedAddAll st.used (finsetKeys e.2) p := by
      simp [allocStep, hk]
    have hfst : e.2 ∈ appendDedup [] (processed.map Prod.snd) := by
      rw [← hinv.k2p_fst]
      exact List.mem_map.mpr ⟨(e.2, p), hmem, rfl⟩
    refine ⟨?_, ?_, ?_, ?_, ?_, ?_, ?_⟩
    · rw [hparts, hk2p, List.length_set]
      exact hinv.len_eq
    · rw [hk2p, List.map_append]
      simp only [List.map_cons, List.map_nil]
      rw [appendDedup_snoc, if_pos hfst, hinv.k2p_fst]
    · rw [hk2p]
      exact hinv.k2p_snd
    · rw [hb2p, List.map_append, List.map_append]
      simp only [List.map_cons, List.map_nil]
      rw [hinv.b2p_fst]
    · intro e' he'
      rw [hb2p] at he'
      rw [hparts]
      rcases List.mem_append.mp he' with h1 | h1
      · obtain ⟨ho1, ho2, ho3⟩ := hinv.b2p_ok e' h1
        refine ⟨by rw [List.length_set]; exact ho1, ?_, ?_⟩
        · by_cases hpp : e'.2.1 = p
          · rw [hpp, getD_set_self _ _ _ _ hppart]
            simp only [List.length_append, List.length_singleton]
            rw [hpp] at ho2
            exact Nat.lt_succ_of_lt ho2
          · rw [getD_set_ne _ _ _ _ _ hpp]
            exact ho2
        · by_cases hpp : e'.2.1 = p
          · rw [hpp, getD_set_self _ _ _ _ hppart]
            rw [hpp] at ho2 ho3
            rw [List.getD_append _ _ _ _ ho2]
            exact ho3
          · rw [getD_set_ne _ _ _ _ _ hpp]
            exact ho3
      · rw [List.mem_singleton] at h1
        subst h1
        simp only
        refine ⟨by rw [List.length_set]; exact hppart, ?_, ?_⟩
        · rw [getD_set_self _ _ _ _ hppart]
          simp
        · rw [getD_set_self _ _ _ _ hppart, List.getD_eq_getElem?_getD,
            List.getElem?_concat_length]
          rfl
    · intro p' hp' i hi
      rw [hparts] at hp' hi
      rw [hb2p]
      rw [List.length_set] at hp'
      by_cases hpp : p' = p
      · subst hpp
        rw [getD_set_self _ _ _ _ hppart] at hi
        simp only [List.length_append, List.length_singleton] at hi
        rcases Nat.lt_succ_iff_lt_or_eq.mp hi with h2 | h2
        · obtain ⟨b, hb⟩ := hinv.slots p' hp' i h2
          exact ⟨b, List.mem_append_left _ hb⟩
        · subst h2
          exact ⟨e.1, List.mem_append_right _ (by simp)⟩
      · rw [getD_set_ne _ _ _ _ _ hpp] at hi
        obtain ⟨b, hb⟩ := hinv.slots p' hp' i hi
        exact ⟨b, List.mem_append_left _ hb⟩
    · intro e' he' k hkmem
      rw [hused]
      rcases List.mem_append.mp he' with h1 | h1
      · exact usedAddAll_isSome_mono _ _ _ _ (hinv.used_some e' h1 k hkmem)
      · rw [List.mem_singleton] at h1
        subst h1
        refine usedAddAll_isSome_of_mem _ _ _ _ ?_
        exact finsetKeys_mem.mpr hkmem
  | none =>
    have hnotmem : e.2 ∉ st.k2p.map Prod.fst := by
      intro hm
      have hs := assocFind?_isSome_iff.mpr hm
      rw [hk] at hs
      exact absurd hs (by simp)
    have hpid : st.k2p.length = st.partitions.length := hinv.len_eq.symm
    have hk2p : (allocStep bodies st e).k2p = st.k2p ++ [(e.2, st.k2p.length)] := by
      simp [allocStep, hk]
    have hgd0 : (st.partitions ++ [[]]).getD st.partitions.length [] = ([] : List Bytes) := by
      rw [List.getD_eq_getElem?_getD, List.getElem?_concat_length]
      rfl
    have hparts : (allocStep bodies st e).partitions =
        (st.partitions ++ [[]]).set st.partitions.length ([] ++ [bodies.getD e.1 []]) := by
      simp [allocStep, hk, hpid, hgd0]
    have hb2p : (allocStep bodies st e).b2p = st.b2p ++ [(e.1, (st.k2p.length, 0))] := by
      simp [allocStep, hk, hpid, hgd0]
    have hused : (allocStep bodies st e).used =
        usedAddAll st.used (finsetKeys e.2) st.k2p.length := by
      simp [allocStep, hk, hpid]
    have hsetlen : ((st.partitions ++ [[]]).set st.partitions.length
        ([] ++ [bodies.getD e.1 []])).length = st.partitions.length + 1 := by
      simp
    have hgetpid : ((st.partitions ++ [[]]).set st.partitions.length
        ([] ++ [bodies.getD e.1 []])).getD st.partitions.length [] =
        [bodies.getD e.1 []] := by
      rw [List.getD_eq_getElem?_getD, List.getElem?_set_eq (by simp)]
      rfl
    have hgetother : ∀ q, q < st.partitions.length →
        ((st.partitions ++ [[]]).set st.partitions.length
          ([] ++ [bodies.getD e.1 []])).getD q [] = st.partitions.getD q [] := by
      intro q hq
      rw [List.getD_eq_getElem?_getD, List.getElem?_set_ne (Nat.ne_of_gt hq),
        List.getElem?_append, if_pos hq, ← List.getD_eq_getElem?_getD]
    refine ⟨?_, ?_, ?_, ?_, ?_, ?_, ?_⟩
    · rw [hparts, hk2p, hsetlen]
      simp [hinv.len_eq]
    · rw [hk2p, List.map_append, List.map_append]
      simp only [List.map_cons, List.map_nil]
      rw [appendDedup_snoc]
      rw [hinv.k2p_fst] at hnotmem
      rw [if_neg hnotmem, hinv.k2p_fst]
    · intro j hj
      rw [hk2p] at hj ⊢
      simp only [List.length_append, List.length_singleton] at hj
      rcases Nat.lt_succ_iff_lt_or_eq.mp hj with h2 | h2
      · rw [List.getD_append _ _ _ _ (by simpa using h2)]
        exact hinv.k2p_snd j h2
      · subst h2
        rw [List.getD_eq_getElem?_getD, List.getElem?_concat_length]
        rfl
    · rw [hb2p, List.map_append, List.map_append]
      simp only [List.map_cons, List.map_nil]
      rw [hinv.b2p_fst]
    · intro e' he'
      rw [hb2p] at he'
      rw [hparts]
      rcases List.mem_append.mp he' with h1 | h1
      · obtain ⟨ho1, ho2, ho3⟩ := hinv.b2p_ok e' h1
        refine ⟨by rw [hsetlen]; exact Nat.lt_succ_of_lt ho1, ?_, ?_⟩
        · rw [hgetother _ ho1]
          exact ho2
        · rw [hgetother _ ho1]
          exact ho3
      · rw [List.mem_singleton] at h1
        subst h1
        simp only
        rw [hpid, hgetpid]
        refine ⟨by rw [hsetlen]; exact Nat.lt_succ_self _, by simp, rfl⟩
    · intro p' hp' i hi
      rw [hparts] at hp' hi
      rw [hb2p]
      rw [hsetlen] at hp'
      rcases Nat.lt_succ_iff_lt_or_eq.mp hp' with h2 | h2
      · rw [hgetother _ h2] at hi
        obtain ⟨b, hb⟩ := hinv.slots p' h2 i hi
        exact ⟨b, List.mem_append_left _ hb⟩
      · subst h2
        rw [hgetpid] at hi
        simp only [List.length_singleton, Nat.lt_one_iff] at hi
        subst hi
        refine ⟨e.1, List.mem_append_right _ ?_⟩
        rw [hpid]
        simp
    · intro e' he' k hkmem
      rw [hused]
      rcases List.mem_append.mp he' with h1 | h1
      · exact usedAddAll_isSome_mono _ _ _ _ (hinv.used_some e' h1 k hkmem)
      · rw [List.mem_singleton] at h1
        subst h1
        refine usedAddAll_isSome_of_mem _ _ _ _ ?_
        exact finsetKeys_mem.mpr hkmem
theorem allocLoop_inv (bodies : List Bytes) (items : List (Nat × Finset Str)) :
    ∀ (processed : List (Nat × Finset Str)) (st : AllocSt),
    AllocInv bodies processed st →
    AllocInv bodies (processed ++ items) (allocLoop bodies items st) := by
  induction items with
  | nil =>
    intro processed st h
    simpa using h
  | cons x xs ih =>
    intro processed st h
    have h1 := allocStep_inv bodies processed st x h
    have h2 := ih (processed ++ [x]) _ h1
    rw [List.append_assoc] at h2
    simpa using h2

theorem pfx_getD {α : Type} {l₁ l₂ : List α} (h : l₁ <+: l₂) {i : Nat}
    (hi : i < l₁.length) (d : α) : l₂.getD i d = l₁.getD i d := by
  obtain ⟨t, rfl⟩ := h
  rw [List.getD_append _ _ _ _ hi]

theorem add_body_spec (bodies : List Bytes) (body : Bytes) :
    bodies <+: (add_body bodies body).2 ∧
    (add_body bodies body).1 < (add_body bodies body).2.length ∧
    (add_body bodies body).2.getD (add_body bodies body).1 [] = body := by
  unfold add_body
  cases hf : bodies.findIdx? (fun b => b = body) with
  | some i =>
    obtain ⟨hlt, hidx⟩ := List.findIdx?_eq_some_iff_findIdx_eq.mp hf
    show bodies <+: bodies ∧ i < bodies.length ∧ bodies.getD i [] = body
    subst hidx
    have hp := @List.findIdx_get _ (fun b => decide (b = body)) bodies hlt
    simp only [decide_eq_true_eq] at hp
    refine ⟨List.prefix_refl _, hlt, ?_⟩
    rw [getD_of_lt _ _ _ hlt]
    exact hp
  | none =>
    show bodies <+: bodies ++ [body] ∧ bodies.length < (bodies ++ [body]).length ∧
      (bodies ++ [body]).getD bodies.length [] = body
    refine ⟨List.prefix_append _ _, by simp, ?_⟩
    rw [List.getD_eq_getElem?_getD, List.getElem?_concat_length]
    rfl

theorem validate_symlink_ok {bodies : List Bytes} {flags : Nat} {key fname : Str}
    {body_id : Nat} {bb : Nat × List Bytes}
    (h : validate_symlink bodies flags key fname body_id = .ok bb) :
    bodies <+: bb.2 ∧
    ((flags &&& SYMLINK_ABS = 0 ∧ bb.1 = body_id ∧ bb.2 = bodies) ∨
     (flags &&& SYMLINK_ABS ≠ 0 ∧
      (pySplit slash (bodies.getD body_id [])).take (requiredPfx key).length =
        requiredPfx key ∧
      bb.1 < bb.2.length ∧
      bb.2.getD bb.1 [] = pyJoin slash
        ((pySplit slash (bodies.getD body_id [])).drop (requiredPfx key).length))) := by
  simp only [validate_symlink] at h
  by_cases habs : flags &&& SYMLINK_ABS ≠ 0
  · rw [if_pos habs] at h
    by_cases hchk : (pySplit slash (bodies.getD body_id [])).take (requiredPfx key).length ≠
        requiredPfx key
    · rw [if_pos hchk] at h
      exact absurd h (by simp)
    · rw [if_neg hchk] at h
      have heq := Except.ok.inj h
      have h1 : (add_body bodies (pyJoin slash
          ((pySplit slash (bodies.getD body_id [])).drop (requiredPfx key).length))).1 =
          bb.1 := congrArg Prod.fst heq
      have h2 : (add_body bodies (pyJoin slash
          ((pySplit slash (bodies.getD body_id [])).drop (requiredPfx key).length))).2 =
          bb.2 := congrArg Prod.snd heq
      obtain ⟨s1, s2, s3⟩ := add_body_spec bodies (pyJoin slash
        ((pySplit slash (bodies.getD body_id [])).drop (requiredPfx key).length))
      rw [h1, h2] at s2 s3
      rw [h2] at s1
      exact ⟨s1, Or.inr ⟨habs, not_not.mp hchk, s2, s3⟩⟩
  · rw [if_neg habs] at h
    cases hw : walkParts (pySplit slash (bodies.getD body_id [])) (pySplit slash fname) with
    | error e => rw [hw] at h; exact absurd h (by simp)
    | ok cur =>
      rw [hw] at h
      have heq := Except.ok.inj h
      have h1 : body_id = bb.1 := congrArg Prod.fst heq
      have h2 : bodies = bb.2 := congrArg Prod.snd heq
      refine ⟨by rw [← h2], Or.inl ⟨not_not.mp habs, h1.symm, h2.symm⟩⟩

theorem expectedBody_plain {orig : List Bytes} {key : Str} {f : FilesCollectionItem}
    (h : f.metadata.flags &&& SYMLINK = 0) :
    expectedBody orig key f = orig.getD f.body_id [] := by
  simp [expectedBody, h]

theorem expectedBody_rel {orig : List Bytes} {key : Str} {f : FilesCollectionItem}
    (h1 : f.metadata.flags &&& SYMLINK ≠ 0) (h2 : f.metadata.flags &&& SYMLINK_ABS = 0) :
    expectedBody orig key f = orig.getD f.body_id [] := by
  simp [expectedBody, h1, h2]

theorem expectedBody_abs {orig : List Bytes} {key : Str} {f : FilesCollectionItem}
    (h1 : f.metadata.flags &&& SYMLINK ≠ 0) (h2 : f.metadata.flags &&& SYMLINK_ABS ≠ 0) :
    expectedBody orig key f = pyJoin slash
      ((pySplit slash (orig.getD f.body_id [])).drop (requiredPfx key).length) := by
  simp [expectedBody, h1, h2]

theorem processFiles_spec (orig : List Bytes) :
    ∀ (l : List (Str × FilesCollectionItem)) (bodies : List Bytes)
      (kbb : List (Nat × Finset Str)) (r : List Bytes × List (Nat × Finset Str) × List PFile),
    orig <+: bodies →
    (∀ e ∈ l, e.2.body_id < orig.length) →
    processFiles bodies kbb l = .ok r →
    bodies <+: r.1 ∧
    List.Forall₂ (fun (e : Str × FilesCollectionItem) (pf : PFile) =>
      classifyFile e.1 = some (pf.key, pf.name) ∧ pf.f = e.2 ∧
      pf.body_id < r.1.length ∧
      r.1.getD pf.body_id [] = expectedBody orig pf.key e.2 ∧
      (e.2.metadata.flags &&& SYMLINK ≠ 0 → e.2.metadata.flags &&& SYMLINK_ABS ≠ 0 →
        (pySplit slash (orig.getD e.2.body_id [])).take (requiredPfx pf.key).length =
          requiredPfx pf.key)) l r.2.2 := by
  intro l
  induction l with
  | nil =>
    intro bodies kbb r _ _ h
    have hr := Except.ok.inj h
    rw [← hr]
    exact ⟨List.prefix_refl _, List.Forall₂.nil⟩
  | cons hd tl ih =>
    intro bodies kbb r hpre hwf h
    obtain ⟨fname, f⟩ := hd
    have hwfhd : f.body_id < orig.length := hwf (fname, f) (List.mem_cons_self _ _)
    have hwftl : ∀ e ∈ tl, e.2.body_id < orig.length :=
      fun e he => hwf e (List.mem_cons_of_mem _ he)
    have hbid : f.body_id < bodies.length := Nat.lt_of_lt_of_le hwfhd hpre.length_le
    have horig : bodies.getD f.body_id [] = orig.getD f.body_id [] := pfx_getD hpre hwfhd []
    cases hcl : classifyFile fname with
    | none => simp [processFiles, hcl] at h
    | some kn =>
      by_cases hflag : f.metadata.flags &&& SYMLINK ≠ 0
      · rw [show processFiles bodies kbb ((fname, f) :: tl) =
            (match validate_symlink bodies f.metadata.flags kn.1 kn.2 f.body_id with
             | .error e => .error e
             | .ok bb =>
              match processFiles bb.2 (kbbAdd kbb bb.1 kn.1) tl with
              | .error e => .error e
              | .ok r2 => .ok (r2.1, r2.2.1, ⟨kn.1, kn.2, f, bb.1⟩ :: r2.2.2)) from by
          simp [processFiles, hcl, hflag]] at h
        cases hv : validate_symlink bodies f.metadata.flags kn.1 kn.2 f.body_id with
        | error e => rw [hv] at h; exact absurd h (by simp)
        | ok bb =>
          rw [hv] at h
          have h2 : (match processFiles bb.2 (kbbAdd kbb bb.1 kn.1) tl with
              | Except.error e => Except.error e
              | Except.ok r2 => Except.ok (r2.1, r2.2.1,
                  (⟨kn.1, kn.2, f, bb.1⟩ : PFile) :: r2.2.2)) = Except.ok r := h
          cases hr : processFiles bb.2 (kbbAdd kbb bb.1 kn.1) tl with
          | error e => rw [hr] at h2; exact absurd h2 (by simp)
          | ok r2 =>
            rw [hr] at h2
            have hre : (r2.1, r2.2.1, (⟨kn.1, kn.2, f, bb.1⟩ : PFile) :: r2.2.2) = r :=
              Except.ok.inj h2
            obtain ⟨hv1, hv2⟩ := validate_symlink_ok hv
            obtain ⟨htr, hfa⟩ := ih bb.2 (kbbAdd kbb bb.1 kn.1) r2 (hpre.trans hv1) hwftl hr
            rw [← hre]
            refine ⟨hv1.trans htr, List.Forall₂.cons ⟨hcl, rfl, ?_, ?_, ?_⟩ hfa⟩
            · rcases hv2 with ⟨_, hbid1, hbod1⟩ | ⟨_, _, hlt1, _⟩
              · show bb.1 < r2.1.length
                rw [hbid1]
                exact Nat.lt_of_lt_of_le (hbod1 ▸ hbid) htr.length_le
              · exact Nat.lt_of_lt_of_le hlt1 htr.length_le
            · rcases hv2 with ⟨habs0, hbid1, hbod1⟩ | ⟨habs1, _, hlt1, hval1⟩
              · show r2.1.getD bb.1 [] = expectedBody orig kn.1 f
                rw [expectedBody_rel hflag habs0, hbid1]
                have hstable : r2.1.getD f.body_id [] = bb.2.getD f.body_id [] :=
                  pfx_getD htr (hbod1 ▸ hbid) []
                rw [hstable, hbod1, horig]
              · show r2.1.getD bb.1 [] = expectedBody orig kn.1 f
                rw [expectedBody_abs hflag habs1]
                have hstable : r2.1.getD bb.1 [] = bb.2.getD bb.1 [] := pfx_getD htr hlt1 []
                rw [hstable, hval1, horig]
            · intro _ habs2
              rcases hv2 with ⟨habs0, _, _⟩ | ⟨_, hchk1, _, _⟩
              · exact absurd habs0 habs2
              · show (pySplit slash (orig.getD f.body_id [])).take
                  (requiredPfx kn.1).length = requiredPfx kn.1
                rw [← horig]
                exact hchk1
      · rw [show processFiles bodies kbb ((fname, f) :: tl) =
            (match processFiles bodies (kbbAdd kbb f.body_id kn.1) tl with
             | .error e => .error e
             | .ok r2 => .ok (r2.1, r2.2.1, ⟨kn.1, kn.2, f, f.body_id⟩ :: r2.2.2)) from by
          simp [processFiles, hcl, hflag]] at h
        cases hr : processFiles bodies (kbbAdd kbb f.body_id kn.1) tl with
        | error e => rw [hr] at h; exact absurd h (by simp)
        | ok r2 =>
          rw [hr] at h
          have hre : (r2.1, r2.2.1, (⟨kn.1, kn.2, f, f.body_id⟩ : PFile) :: r2.2.2) = r :=
            Except.ok.inj h
          obtain ⟨htr, hfa⟩ := ih bodies (kbbAdd kbb f.body_id kn.1) r2 hpre hwftl hr
          rw [← hre]
          have hflag0 : f.metadata.flags &&& SYMLINK = 0 := not_not.mp hflag
          refine ⟨htr, List.Forall₂.cons ⟨hcl, rfl, ?_, ?_, ?_⟩ hfa⟩
          · exact Nat.lt_of_lt_of_le hbid htr.length_le
          · show r2.1.getD f.body_id [] = expectedBody orig kn.1 f
            rw [expectedBody_plain hflag0]
            have hstable : r2.1.getD f.body_id [] = bodies.getD f.body_id [] :=
              pfx_getD htr hbid []
            rw [hstable, horig]
          · intro habs1 _
            exact absurd hflag0 habs1

theorem pyStartswith_iff {s p : Str} : pyStartswith s p = true ↔ ∃ r, s = p ++ r := by
  rw [pyStartswith, List.isPrefixOf_iff_prefix]
  constructor
  · rintro ⟨r, hr⟩
    exact ⟨r, hr.symm⟩
  · rintro ⟨r, hr⟩
    exact ⟨r, hr.symm⟩

theorem splitFirst_append {sep : Nat} : ∀ (a b : Str), sep ∉ a →
    splitFirst sep (a ++ sep :: b) = some (a, b)
  | [], b, _ => by simp [splitFirst]
  | c :: cs, b, ha => by
    have hc : ¬ c = sep := fun h => ha (h ▸ List.mem_cons_self c cs)
    have hcs : sep ∉ cs := fun h => ha (List.mem_cons_of_mem _ h)
    simp [splitFirst, hc, splitFirst_append cs b hcs]

theorem splitFirst_some_spec {sep : Nat} : ∀ {s a b : Str},
    splitFirst sep s = some (a, b) → sep ∉ a ∧ s = a ++ sep :: b := by
  intro s
  induction s with
  | nil => intro a b h; simp [splitFirst] at h
  | cons c cs ih =>
    intro a b h
    by_cases hc : c = sep
    · simp [splitFirst, hc] at h
      obtain ⟨ha, hb⟩ := h
      subst ha; subst hb; subst hc
      exact ⟨List.not_mem_nil _, rfl⟩
    · simp only [splitFirst, hc, if_false] at h
      obtain ⟨⟨a', b'⟩, hp, heq⟩ := Option.map_eq_some'.mp h
      obtain ⟨ha', hs⟩ := ih hp
      have hae : a = c :: a' := (Prod.mk.injEq .. ▸ heq).1.symm
      have hbe : b = b' := (Prod.mk.injEq .. ▸ heq).2.symm
      subst hae; subst hbe
      refine ⟨fun hm => ?_, by simp [hs]⟩
      rcases List.mem_cons.mp hm with h1 | h1
      · exact hc h1.symm
      · exact ha' h1

theorem classifyFile_master {p : Str} (h : pyStartswith p (strLit "master/") = true) :
    classifyFile p = some ([], p.drop 7) := by
  have hlen : (strLit "master/").length = 7 := rfl
  simp [classifyFile, stripPfx, stripPfxAux, h, hlen]

theorem classifyFile_tenants {p : Str} (h1 : pyStartswith p (strLit "master/") = false)
    (h2 : pyStartswith p (strLit "tenants/") = true) :
    classifyFile p =
      match splitFirst slash (p.drop 8) with
      | some ab => some ab
      | none => none := by
  simp only [classifyFile, stripPfx, stripPfxAux, h1, h2, Bool.false_eq_true, if_false,
    if_true, pySplit1]
  have hlen : (strLit "tenants/").length = 8 := rfl
  rw [hlen]
  cases hsf : splitFirst slash (p.drop 8) with
  | none => simp
  | some ab => simp

theorem classifyFile_no_match {p : Str} (h1 : pyStartswith p (strLit "master/") = false)
    (h2 : pyStartswith p (strLit "tenants/") = false) :
    classifyFile p = none := by
  simp [classifyFile, stripPfx, stripPfxAux, h1, h2]

theorem classifyFile_some_inv {p : Str} {k n : Str} (h : classifyFile p = some (k, n)) :
    (pyStartswith p (strLit "master/") = true ∧ k = [] ∧ n = p.drop 7) ∨
    (pyStartswith p (strLit "master/") = false ∧ pyStartswith p (strLit "tenants/") = true ∧
      splitFirst slash (p.drop 8) = some (k, n)) := by
  cases hm : pyStartswith p (strLit "master/") with
  | true =>
    rw [classifyFile_master hm] at h
    have h2 : (([] : Str), p.drop 7) = (k, n) := Option.some.inj h
    exact Or.inl ⟨rfl, (congrArg Prod.fst h2).symm, (congrArg Prod.snd h2).symm⟩
  | false =>
    cases ht : pyStartswith p (strLit "tenants/") with
    | true =>
      rw [classifyFile_tenants hm ht] at h
      cases hsf : splitFirst slash (p.drop 8) with
      | none => rw [hsf] at h; exact absurd h (by simp)
      | some ab =>
        rw [hsf] at h
        have hab : ab = (k, n) := Option.some.inj h
        exact Or.inr ⟨rfl, rfl, by rw [hab]⟩
    | false => rw [classifyFile_no_match hm ht] at h; exact absurd h (by simp)

theorem classifyFile_isSome_iff {p : Str} :
    (classifyFile p).isSome = true ↔ c8GoodForm p := by
  constructor
  · intro h
    obtain ⟨⟨k, n⟩, hkn⟩ := Option.isSome_iff_exists.mp h
    rcases classifyFile_some_inv hkn with ⟨hm, _, _⟩ | ⟨_, ht, hsf⟩
    · exact Or.inl hm
    · obtain ⟨hnk, hdec⟩ := splitFirst_some_spec hsf
      obtain ⟨r, hr⟩ := pyStartswith_iff.mp ht
      have hr8 : p.drop 8 = r := by
        rw [hr]
        have h8 : (strLit "tenants/").length = 8 := rfl
        rw [← h8, List.drop_left]
      rw [hr8] at hdec
      refine Or.inr ⟨k, n, hnk, ?_⟩
      rw [hr, List.append_assoc]
      exact congrArg (fun x => strLit "tenants/" ++ x) hdec
  · rintro (hm | ⟨name, rest, hnk, heq⟩)
    · rw [classifyFile_master hm]; rfl
    · cases hm : pyStartswith p (strLit "master/") with
      | true => rw [classifyFile_master hm]; rfl
      | false =>
        have hteq : p = strLit "tenants/" ++ (name ++ slash :: rest) := by
          rw [heq, List.append_assoc]
        have ht : pyStartswith p (strLit "tenants/") = true :=
          pyStartswith_iff.mpr ⟨name ++ slash :: rest, hteq⟩
        have hdrop : p.drop 8 = name ++ slash :: rest := by
          rw [hteq]
          have h8 : (strLit "tenants/").length = 8 := rfl
          rw [← h8, List.drop_left]
        rw [classifyFile_tenants hm ht, hdrop, splitFirst_append name rest hnk]
        rfl

theorem processFiles_no_symlink (l : List (Str × FilesCollectionItem)) :
    ∀ (bodies : List Bytes) (kbb : List (Nat × Finset Str)),
    (∀ e ∈ l, e.2.metadata.flags &&& SYMLINK = 0) →
    (processFiles bodies kbb l = .error .BAD_LAYOUT ↔ ∃ e ∈ l, classifyFile e.1 = none) ∧
    (∀ er, processFiles bodies kbb l = .error er → er = .BAD_LAYOUT) := by
  induction l with
  | nil =>
    intro bodies kbb _
    refine ⟨⟨fun h => absurd h (by simp [processFiles]), ?_⟩, ?_⟩
    · rintro ⟨e, he, _⟩; exact absurd he (List.not_mem_nil e)
    · intro er h; exact absurd h (by simp [processFiles])
  | cons hd tl ih =>
    intro bodies kbb hns
    obtain ⟨fname, f⟩ := hd
    have hflag : f.metadata.flags &&& SYMLINK = 0 :=
      hns (fname, f) (List.mem_cons_self _ _)
    have hns' : ∀ e ∈ tl, e.2.metadata.flags &&& SYMLINK = 0 :=
      fun e he => hns e (List.mem_cons_of_mem _ he)
    cases hcl : classifyFile fname with
    | none =>
      have hstep : processFiles bodies kbb ((fname, f) :: tl) = .error .BAD_LAYOUT := by
        simp [processFiles, hcl]
      refine ⟨⟨fun _ => ⟨(fname, f), List.mem_cons_self _ _, hcl⟩, fun _ => hstep⟩, fun er h => ?_⟩
      rw [hstep] at h
      exact (Except.error.inj h).symm
    | some kn =>
      have hrec := ih bodies (kbbAdd kbb f.body_id kn.1) hns'
      have hstep : processFiles bodies kbb ((fname, f) :: tl) =
          match processFiles bodies (kbbAdd kbb f.body_id kn.1) tl with
          | .error e => .error e
          | .ok r => .ok (r.1, r.2.1, ⟨kn.1, kn.2, f, f.body_id⟩ :: r.2.2) := by
        simp [processFiles, hcl, hflag]
      rw [hstep]
      cases hr : processFiles bodies (kbbAdd kbb f.body_id kn.1) tl with
      | error e =>
        refine ⟨⟨fun h => ?_, fun h => ?_⟩, fun er h => ?_⟩
        · have he : e = Err.BAD_LAYOUT := Except.error.inj h
          obtain ⟨x, hx, hcx⟩ := hrec.1.mp (he ▸ hr)
          exact ⟨x, List.mem_cons_of_mem _ hx, hcx⟩
        · obtain ⟨x, hx, hcx⟩ := h
          rcases List.mem_cons.mp hx with h1 | h1
          · exact absurd (h1 ▸ hcx) (by simp [hcl])
          · have hh := hrec.1.mpr ⟨x, h1, hcx⟩
            rw [hr] at hh
            exact hh
        · have he : e = er := Except.error.inj h
          exact he ▸ hrec.2 e hr
      | ok r =>
        refine ⟨⟨fun h => absurd h (by simp), fun h => ?_⟩, fun er h => absurd h (by simp)⟩
        obtain ⟨x, hx, hcx⟩ := h
        rcases List.mem_cons.mp hx with h1 | h1
        · exact absurd (h1 ▸ hcx) (by simp [hcl])
        · have hh := hrec.1.mpr ⟨x, h1, hcx⟩
          rw [hr] at hh
          exact absurd hh (by simp)

theorem partition_files_eq (c : FilesCollection) :
    partition_files c =
      match processFiles c.bodies [] (sortLe (fun x y => strLeB x.1 y.1) c.files) with
      | .error e => .error e
      | .ok r =>
        .ok ⟨(allocLoop r.1 (sortLe (fun x y => Nat.ble x.1 y.1) r.2.1) ⟨[], [], [], []⟩).partitions,
             (allocLoop r.1 (sortLe (fun x y => Nat.ble x.1 y.1) r.2.1) ⟨[], [], [], []⟩).used,
             emitFiles (allocLoop r.1 (sortLe (fun x y => Nat.ble x.1 y.1) r.2.1) ⟨[], [], [], []⟩).b2p
               r.2.2⟩ := rfl

theorem partition_files_badlayout_iff (c : FilesCollection)
    (hns : ∀ e ∈ c.files, e.2.metadata.flags &&& SYMLINK = 0) :
    (partition_files c = .error .BAD_LAYOUT ↔ ∃ e ∈ c.files, classifyFile e.1 = none) := by
  have hperm := sortLe_perm (fun x y : Str × FilesCollectionItem => strLeB x.1 y.1) c.files
  have hns' : ∀ e ∈ sortLe (fun x y : Str × FilesCollectionItem => strLeB x.1 y.1) c.files,
      e.2.metadata.flags &&& SYMLINK = 0 := fun e he => hns e (hperm.mem_iff.mp he)
  have hpf := processFiles_no_symlink _ c.bodies [] hns'
  rw [partition_files_eq c]
  cases hr : processFiles c.bodies [] (sortLe (fun x y => strLeB x.1 y.1) c.files) with
  | error e =>
    constructor
    · intro h
      have he : e = Err.BAD_LAYOUT := Except.error.inj h
      obtain ⟨x, hx, hcx⟩ := hpf.1.mp (he ▸ hr)
      exact ⟨x, hperm.mem_iff.mp hx, hcx⟩
    · rintro ⟨x, hx, hcx⟩
      have hh := hpf.1.mpr ⟨x, hperm.mem_iff.mpr hx, hcx⟩
      rw [hr] at hh
      have he : e = Err.BAD_LAYOUT := Except.error.inj hh
      rw [he]
  | ok r =>
    constructor
    · intro h
      exact absurd h (by simp)
    · rintro ⟨x, hx, hcx⟩
      have hh := hpf.1.mpr ⟨x, hperm.mem_iff.mpr hx, hcx⟩
      rw [hr] at hh
      exact absurd hh (by simp)

/-- C8, counterexample: the path `tenants/a/` does not have the form
`tenants/<name>/<rest>` with a non-empty `<rest>`, yet `partition_files`
accepts the collection containing it: `tail.split("/", 1)` yields
`["a", ""]`, which has two fields, so the empty-`<rest>` path is
classified to principal `a`. -/
theorem c8_empty_rest_accepted :
    (partition_files c8_collection).isOk = true ∧ ¬ c8ClaimForm (strLit "tenants/a/") := by
  refine ⟨by decide, ?_⟩
  rintro (hm | ⟨name, rest, hnk, hne, heq⟩)
  · exact absurd hm (by decide)
  · have heq' : strLit "tenants/" ++ strLit "a/" = strLit "tenants/" ++ (name ++ slash :: rest) := by
      rw [← List.append_assoc, ← heq]
      decide
    have h2 : strLit "a/" = name ++ slash :: rest := List.append_cancel_left heq'
    have h3 : splitFirst slash (strLit "a/") = some (name, rest) := by
      rw [h2]; exact splitFirst_append name rest hnk
    have h4 : splitFirst slash (strLit "a/") = some ([97], []) := by decide
    rw [h4] at h3
    have h5 : (([97] : Str), ([] : Str)) = (name, rest) := Option.some.inj h3
    exact hne (congrArg Prod.snd h5).symm

/-- C8, amended: for a collection whose files carry no `SYMLINK` flag,
`partition_files` fails with `BAD_LAYOUT` exactly when some file path
neither begins with `master/` nor has the form `tenants/<name>/<rest>`
with a slash-free `<name>` and a possibly empty `<rest>`; every accepted
path is classified to principal `""` (for `master/`) or `<name>` (for
`tenants/<name>/`). -/
theorem c8_layout_classification (c : FilesCollection)
    (hns : ∀ e ∈ c.files, e.2.metadata.flags &&& SYMLINK = 0) :
    (partition_files c = .error .BAD_LAYOUT ↔ ∃ e ∈ c.files, ¬ c8GoodForm e.1) ∧
    (∀ e ∈ c.files, ∀ k n, classifyFile e.1 = some (k, n) →
      (k = [] ∧ e.1 = strLit "master/" ++ n) ∨
      e.1 = strLit "tenants/" ++ k ++ slash :: n) := by
  constructor
  · rw [partition_files_badlayout_iff c hns]
    constructor
    · rintro ⟨e, he, hce⟩
      refine ⟨e, he, fun hg => ?_⟩
      have := classifyFile_isSome_iff.mpr hg
      rw [hce] at this
      exact absurd this (by simp)
    · rintro ⟨e, he, hg⟩
      refine ⟨e, he, ?_⟩
      cases hce : classifyFile e.1 with
      | none => rfl
      | some kn =>
        exact absurd (classifyFile_isSome_iff.mp (by rw [hce]; rfl)) hg
  · intro e _ k n hcl
    rcases classifyFile_some_inv hcl with ⟨hm, hk, hn⟩ | ⟨_, ht, hsf⟩
    · obtain ⟨r, hr⟩ := pyStartswith_iff.mp hm
      refine Or.inl ⟨hk, ?_⟩
      have hr7 : e.1.drop 7 = r := by
        rw [hr]
        have h7 : (strLit "master/").length = 7 := rfl
        rw [← h7, List.drop_left]
      rw [hn, hr7, hr]
    · obtain ⟨_, hdec⟩ := splitFirst_some_spec hsf
      obtain ⟨r, hr⟩ := pyStartswith_iff.mp ht
      have hr8 : e.1.drop 8 = r := by
        rw [hr]
        have h8 : (strLit "tenants/").length = 8 := rfl
        rw [← h8, List.drop_left]
      rw [hr8] at hdec
      refine Or.inr ?_
      rw [hr, List.append_assoc]
      exact congrArg (fun x => strLit "tenants/" ++ x) hdec

theorem c8_layout_classification_witness :
    (partition_files c8_witness_collection = .error .BAD_LAYOUT ↔
      ∃ e ∈ c8_witness_collection.files, ¬ c8GoodForm e.1) ∧
    (∀ e ∈ c8_witness_collection.files, ∀ k n, classifyFile e.1 = some (k, n) →
      (k = [] ∧ e.1 = strLit "master/" ++ n) ∨
      e.1 = strLit "tenants/" ++ k ++ slash :: n) :=
  c8_layout_classification c8_witness_collection (by decide)

theorem insLe_pairwise {α : Type} (le : α → α → Bool)
    (htot : ∀ a b, le a b = true ∨ le b a = true)
    (htrans : ∀ a b c, le a b = true → le b c = true → le a c = true)
    (x : α) : ∀ l : List α, l.Pairwise (fun a b => le a b = true) →
    (insLe le x l).Pairwise (fun a b => le a b = true)
  | [], _ => by simp [insLe]
  | y :: ys, hl => by
    rw [List.pairwise_cons] at hl
    obtain ⟨hy, hys⟩ := hl
    by_cases h : le x y = true
    · simp only [insLe]
      rw [if_pos h, List.pairwise_cons]
      refine ⟨?_, ?_⟩
      · intro z hz
        rcases List.mem_cons.mp hz with h1 | h1
        · subst h1; exact h
        · exact htrans x y z h (hy z h1)
      · rw [List.pairwise_cons]
        exact ⟨hy, hys⟩
    · simp only [insLe]
      rw [if_neg h, List.pairwise_cons]
      refine ⟨?_, insLe_pairwise le htot htrans x ys hys⟩
      intro z hz
      have hz' := (insLe_perm le x ys).mem_iff.mp hz
      rcases List.mem_cons.mp hz' with h1 | h1
      · rw [h1]
        exact (htot x y).resolve_left h
      · exact hy z h1

theorem sortLe_pairwise {α : Type} (le : α → α → Bool)
    (htot : ∀ a b, le a b = true ∨ le b a = true)
    (htrans : ∀ a b c, le a b = true → le b c = true → le a c = true)
    (l : List α) : (sortLe le l).Pairwise (fun a b => le a b = true) := by
  induction l with
  | nil => exact List.Pairwise.nil
  | cons x xs ih =>
    show (insLe le x (sortLe le xs)).Pairwise (fun a b => le a b = true)
    exact insLe_pairwise le htot htrans x (sortLe le xs) ih

/-- C4: for every accepted collection, the number of partitions equals the
number of distinct visibility sets present in the input (computed over the
per-file records after symlink-body rewriting); the `keys_by_body_id`
entries are processed in ascending `body_id` order, and partition ids are
allocated on first encounter of each visibility set: the keyset-to-id map
lists the visibility sets in first-encounter order and assigns them the
consecutive ids `0, 1, 2, ...`. -/
theorem c4_partition_minimality (c : FilesCollection) (res : FilesPartitions)
    (bodies' : List Bytes) (kbb' : List (Nat × Finset Str)) (pfiles : List PFile)
    (hp : processFiles c.bodies []
      (sortLe (fun x y => strLeB x.1 y.1) c.files) = .ok (bodies', kbb', pfiles))
    (h : partition_files c = .ok res) :
    res.partitions.length = ((bodyIds pfiles).image (visSet pfiles)).card ∧
    ((sortLe (fun x y => Nat.ble x.1 y.1) kbb').map Prod.fst).Pairwise (· ≤ ·) ∧
    (allocLoop bodies' (sortLe (fun x y => Nat.ble x.1 y.1) kbb') ⟨[], [], [], []⟩).k2p.map
      Prod.fst = appendDedup [] ((sortLe (fun x y => Nat.ble x.1 y.1) kbb').map Prod.snd) ∧
    (∀ j, j < (allocLoop bodies' (sortLe (fun x y => Nat.ble x.1 y.1) kbb')
        ⟨[], [], [], []⟩).k2p.length →
      ((allocLoop bodies' (sortLe (fun x y => Nat.ble x.1 y.1) kbb')
        ⟨[], [], [], []⟩).k2p.getD j (∅, 0)).2 = j) := by
  have hkbb : kbb' = kbbFold [] pfiles :=
    processFiles_kbb _ c.bodies [] (bodies', kbb', pfiles) hp
  have hinv0 := allocLoop_inv bodies' (sortLe (fun x y => Nat.ble x.1 y.1) kbb') []
    ⟨[], [], [], []⟩ (allocInv_init bodies')
  have hinv : AllocInv bodies' (sortLe (fun x y => Nat.ble x.1 y.1) kbb')
      (allocLoop bodies' (sortLe (fun x y => Nat.ble x.1 y.1) kbb') ⟨[], [], [], []⟩) := by
    simpa using hinv0
  rw [partition_files_eq c, hp] at h
  have hinj := Except.ok.inj h
  have hparts : res.partitions = (allocLoop bodies'
      (sortLe (fun x y => Nat.ble x.1 y.1) kbb') ⟨[], [], [], []⟩).partitions :=
    (congrArg FilesPartitions.partitions hinj).symm
  refine ⟨?_, ?_, hinv.k2p_fst, hinv.k2p_snd⟩
  · rw [hparts, hinv.len_eq]
    have hlen : (allocLoop bodies' (sortLe (fun x y => Nat.ble x.1 y.1) kbb')
        ⟨[], [], [], []⟩).k2p.length =
        (appendDedup [] ((sortLe (fun x y => Nat.ble x.1 y.1) kbb').map Prod.snd)).length := by
      rw [← hinv.k2p_fst]
      exact (List.length_map _ _).symm
    rw [hlen]
    have hnd := appendDedup_nodup ((sortLe (fun x y => Nat.ble x.1 y.1) kbb').map Prod.snd)
      [] List.nodup_nil
    have htf := appendDedup_toFinset ((sortLe (fun x y => Nat.ble x.1 y.1) kbb').map
      Prod.snd) []
    rw [← List.toFinset_card_of_nodup hnd, htf]
    simp only [List.toFinset_nil, Finset.empty_union]
    have hperm : ((sortLe (fun x y => Nat.ble x.1 y.1) kbb').map Prod.snd).Perm
        (kbb'.map Prod.snd) :=
      (sortLe_perm _ kbb').map Prod.snd
    rw [List.toFinset_eq_of_perm _ _ hperm, hkbb, kbbFold_values_toFinset]
  · rw [List.pairwise_map]
    have hpw := sortLe_pairwise (fun x y : Nat × Finset Str => Nat.ble x.1 y.1)
      (fun a b => by
        rcases Nat.le_total a.1 b.1 with h1 | h1
        · exact Or.inl (by rw [Nat.ble_eq]; exact h1)
        · exact Or.inr (by rw [Nat.ble_eq]; exact h1))
      (fun a b c h1 h2 => by
        rw [Nat.ble_eq] at h1 h2 ⊢
        exact Nat.le_trans h1 h2)
      kbb'
    refine List.Pairwise.imp ?_ hpw
    intro a b hab
    rw [Nat.ble_eq] at hab
    exact hab

theorem c4_partition_minimality_witness :
    c4_witness_res.partitions.length =
      ((bodyIds [⟨[], [97], ⟨⟨0, 0⟩, 0⟩, 0⟩]).image
        (visSet [⟨[], [97], ⟨⟨0, 0⟩, 0⟩, 0⟩])).card ∧
    ((sortLe (fun x y => Nat.ble x.1 y.1) [(0, ({[]} : Finset Str))]).map
      Prod.fst).Pairwise (· ≤ ·) ∧
    (allocLoop [[97]] (sortLe (fun x y => Nat.ble x.1 y.1) [(0, ({[]} : Finset Str))])
      ⟨[], [], [], []⟩).k2p.map Prod.fst =
      appendDedup [] ((sortLe (fun x y => Nat.ble x.1 y.1)
        [(0, ({[]} : Finset Str))]).map Prod.snd) ∧
    (∀ j, j < (allocLoop [[97]] (sortLe (fun x y => Nat.ble x.1 y.1)
        [(0, ({[]} : Finset Str))]) ⟨[], [], [], []⟩).k2p.length →
      ((allocLoop [[97]] (sortLe (fun x y => Nat.ble x.1 y.1)
        [(0, ({[]} : Finset Str))]) ⟨[], [], [], []⟩).k2p.getD j (∅, 0)).2 = j) :=
  c4_partition_minimality c4_witness_collection c4_witness_res [[97]]
    [(0, ({[]} : Finset Str))] [⟨[], [97], ⟨⟨0, 0⟩, 0⟩, 0⟩] (by decide) (by decide)


/-- C9 counterexample: the claim says every body stored in every output
partition is referenced by at least one emitted `FilesPartitionsItem`.
For `c9cex` the two distinct paths `master/x` and `tenants//x` classify to
the same principal and relative name, the second emitted item overwrites
the first in the nested `files` dictionary, and partition slot `(0, 0)`
(the body of `master/x`) ends up referenced by no emitted item. -/
theorem c9_orphan_slot :
    partition_files c9cex = .ok c9cexRes ∧
    ¬ (∀ p, p < c9cexRes.partitions.length →
        ∀ i, i < (c9cexRes.partitions.getD p []).length →
        ∃ e ∈ c9cexRes.files, ∃ e2 ∈ e.2,
          e2.2.partition_id = p ∧ e2.2.body_id = i) := by
  decide

theorem assocUpdate_mem {κ ν : Type} [DecidableEq κ] {l : List (κ × ν)} {k : κ}
    {f : ν → ν} {e : κ × ν} (h : e ∈ assocUpdate l k f) :
    ∃ e0 ∈ l, (e0.1 = k ∧ e = (k, f e0.2)) ∨ (¬ e0.1 = k ∧ e = e0) := by
  obtain ⟨e0, he0, heq⟩ := List.mem_map.mp h
  by_cases hk : e0.1 = k
  · refine ⟨e0, he0, Or.inl ⟨hk, ?_⟩⟩
    rw [← heq]
    simp [hk]
  · refine ⟨e0, he0, Or.inr ⟨hk, ?_⟩⟩
    rw [← heq]
    simp [hk]

theorem assocFind?_none_keys {κ ν : Type} [DecidableEq κ] {l : List (κ × ν)} {k : κ}
    (h : assocFind? k l = none) : ∀ e ∈ l, ¬ e.1 = k := by
  intro e he hk
  have hs : (assocFind? k l).isSome = true :=
    assocFind?_isSome_iff.mpr (List.mem_map.mpr ⟨e, he, hk⟩)
  rw [h] at hs
  exact absurd hs (by simp)

theorem dictInsert_mem {κ ν : Type} [DecidableEq κ] {l : List (κ × ν)} {k : κ} {v : ν}
    {e : κ × ν} (h : e ∈ dictInsert l k v) :
    (e ∈ l ∧ ¬ e.1 = k) ∨ (e.1 = k ∧ e.2 = v) := by
  unfold dictInsert at h
  by_cases hs : (assocFind? k l).isSome = true
  · rw [if_pos hs] at h
    obtain ⟨e0, he0, hc⟩ := assocUpdate_mem h
    rcases hc with ⟨hk, hee⟩ | ⟨hk, hee⟩
    · right
      rw [hee]
      exact ⟨rfl, rfl⟩
    · left
      rw [hee]
      exact ⟨he0, hk⟩
  · rw [if_neg hs] at h
    rcases List.mem_append.mp h with h1 | h1
    · left
      refine ⟨h1, ?_⟩
      have hnone : assocFind? k l = none := by
        cases hq : assocFind? k l with
        | none => rfl
        | some w =>
          rw [hq] at hs
          exact absurd rfl hs
      exact assocFind?_none_keys hnone e h1
    · right
      rw [List.mem_singleton] at h1
      rw [h1]
      exact ⟨rfl, rfl⟩

theorem filesAdd_find_self (acc : List (Str × List (Str × FilesPartitionsItem)))
    (key name : Str) (it : FilesPartitionsItem) :
    findNested (filesAdd acc key name it) key name = some it := by
  unfold filesAdd findNested
  cases hf : assocFind? key acc with
  | some w =>
    rw [assocFind?_update_self, hf]
    exact assocFind?_dictInsert_self w name it
  | none =>
    rw [assocFind?_append_none _ hf]
    simp [assocFind?]

theorem filesAdd_find_other (acc : List (Str × List (Str × FilesPartitionsItem)))
    (key name : Str) (it : FilesPartitionsItem) {k n : Str}
    (h : ¬ (k = key ∧ n = name)) :
    findNested (filesAdd acc key name it) k n = findNested acc k n := by
  unfold filesAdd findNested
  by_cases hk : k = key
  · subst hk
    have hn : ¬ n = name := fun hh => h ⟨rfl, hh⟩
    cases hf : assocFind? k acc with
    | some w =>
      rw [assocFind?_update_self, hf]
      show assocFind? n (dictInsert w name it) = assocFind? n w
      exact assocFind?_dictInsert_ne w name it hn
    | none =>
      rw [assocFind?_append_none _ hf]
      simp [assocFind?, Ne.symm hn]
  · cases hf : assocFind? key acc with
    | some w =>
      rw [assocFind?_update_ne _ _ hk]
    | none =>
      cases hq : assocFind? k acc with
      | some w2 =>
        rw [assocFind?_append_some _ hq]
      | none =>
        rw [assocFind?_append_none _ hq]
        have hone : assocFind? k ([(key, [(name, it)])] :
            List (Str × List (Str × FilesPartitionsItem))) = none := by
          simp [assocFind?, Ne.symm hk]
        rw [hone]

theorem emitFold_find_preserve (b2p : List (Nat × (Nat × Nat))) (pfiles : List PFile) :
    ∀ (acc : List (Str × List (Str × FilesPartitionsItem))) (k n : Str)
      (it : FilesPartitionsItem),
    findNested acc k n = some it →
    (∀ pf ∈ pfiles, pf.key = k → pf.name = n → emitItem b2p pf = it) →
    findNested (pfiles.foldl (emitStep b2p) acc) k n = some it := by
  induction pfiles with
  | nil =>
    intro acc k n it h _
    exact h
  | cons pf rest ih =>
    intro acc k n it h hcond
    show findNested (rest.foldl (emitStep b2p) (emitStep b2p acc pf)) k n = some it
    by_cases hkn : pf.key = k ∧ pf.name = n
    · have he : emitItem b2p pf = it := hcond pf (List.mem_cons_self _ _) hkn.1 hkn.2
      have h1 : findNested (emitStep b2p acc pf) k n = some it := by
        show findNested (filesAdd acc pf.key pf.name (emitItem b2p pf)) k n = some it
        rw [← hkn.1, ← hkn.2, filesAdd_find_self, he]
      exact ih _ _ _ _ h1 (fun q hq => hcond q (List.mem_cons_of_mem _ hq))
    · have h1 : findNested (emitStep b2p acc pf) k n = findNested acc k n :=
        filesAdd_find_other acc pf.key pf.name (emitItem b2p pf)
          (fun hh => hkn ⟨hh.1.symm, hh.2.symm⟩)
      exact ih _ _ _ _ (h1.trans h) (fun q hq => hcond q (List.mem_cons_of_mem _ hq))

theorem emitFiles_mem_find (b2p : List (Nat × (Nat × Nat))) (pfiles : List PFile) :
    ∀ (acc : List (Str × List (Str × FilesPartitionsItem))) (pf : PFile),
    pf ∈ pfiles →
    (∀ q ∈ pfiles, q.key = pf.key → q.name = pf.name → q = pf) →
    findNested (pfiles.foldl (emitStep b2p) acc) pf.key pf.name =
      some (emitItem b2p pf) := by
  induction pfiles with
  | nil =>
    intro acc pf h _
    exact absurd h (List.not_mem_nil _)
  | cons p0 rest ih =>
    intro acc pf hmem huniq
    show findNested (rest.foldl (emitStep b2p) (emitStep b2p acc p0)) pf.key pf.name =
      some (emitItem b2p pf)
    rcases List.mem_cons.mp hmem with h0 | h0
    · have h1 : findNested (emitStep b2p acc p0) pf.key pf.name =
          some (emitItem b2p pf) := by
        rw [h0]
        exact filesAdd_find_self acc p0.key p0.name (emitItem b2p p0)
      exact emitFold_find_preserve b2p rest _ _ _ _ h1
        (fun q hq hqk hqn => by
          rw [huniq q (List.mem_cons_of_mem _ hq) hqk hqn])
    · exact ih _ pf h0 (fun q hq => huniq q (List.mem_cons_of_mem _ hq))

theorem pfiles_uniq {l : List (Str × FilesCollectionItem)} {pfiles : List PFile}
    (hfa : List.Forall₂ (fun (e : Str × FilesCollectionItem) (pf : PFile) =>
      classifyFile e.1 = some (pf.key, pf.name)) l pfiles)
    (hnd : (l.map Prod.fst).Nodup)
    (hinj : ∀ e1 ∈ l, ∀ e2 ∈ l, classifyFile e1.1 = classifyFile e2.1 → e1.1 = e2.1) :
    ∀ pf1 ∈ pfiles, ∀ pf2 ∈ pfiles, pf1.key = pf2.key → pf1.name = pf2.name →
      pf1 = pf2 := by
  intro pf1 h1 pf2 h2 hk hn
  obtain ⟨⟨i, hi⟩, hg1⟩ := List.mem_iff_get.mp h1
  obtain ⟨⟨j, hj⟩, hg2⟩ := List.mem_iff_get.mp h2
  obtain ⟨hlen, hget⟩ := List.forall₂_iff_get.mp hfa
  have hi' : i < l.length := by
    rw [hlen]
    exact hi
  have hj' : j < l.length := by
    rw [hlen]
    exact hj
  have hc1 := hget i hi' hi
  have hc2 := hget j hj' hj
  rw [hg1] at hc1
  rw [hg2] at hc2
  have hceq : classifyFile (l.get ⟨i, hi'⟩).1 = classifyFile (l.get ⟨j, hj'⟩).1 := by
    rw [hc1, hc2, hk, hn]
  have hfst : (l.get ⟨i, hi'⟩).1 = (l.get ⟨j, hj'⟩).1 :=
    hinj _ (l.get_mem i hi') _ (l.get_mem j hj') hceq
  have hmi : i < (l.map Prod.fst).length := by simpa using hi'
  have hmj : j < (l.map Prod.fst).length := by simpa using hj'
  have hmap : (l.map Prod.fst).get ⟨i, hmi⟩ = (l.map Prod.fst).get ⟨j, hmj⟩ := by
    rw [List.get_map, List.get_map]
    exact hfst
  have hij : i = j := Fin.mk.inj_iff.mp ((hnd.get_inj_iff).mp hmap)
  rw [← hg1, ← hg2]
  exact congrArg pfiles.get (Fin.ext hij)

/-- C9 (amended): for every collection with distinct file paths, in-range
body ids, and injectively classified paths (no two distinct paths mapping
to the same principal and relative name - ruling out collisions such as
`master/x` vs `tenants//x`, see `c9_orphan_slot`), every slot of every
output partition of `partition_files` is referenced by at least one
emitted `FilesPartitionsItem`: there are no orphan bodies. -/
theorem c9_no_orphan_slots (c : FilesCollection)
    (hnodup : (c.files.map Prod.fst).Nodup)
    (hwf : ∀ e ∈ c.files, e.2.body_id < c.bodies.length)
    (hinj : ∀ e1 ∈ c.files, ∀ e2 ∈ c.files,
      classifyFile e1.1 = classifyFile e2.1 → e1.1 = e2.1)
    (res : FilesPartitions) (h : partition_files c = .ok res) :
    ∀ p, p < res.partitions.length → ∀ i, i < (res.partitions.getD p []).length →
    ∃ e ∈ res.files, ∃ e2 ∈ e.2, e2.2.partition_id = p ∧ e2.2.body_id = i := by
  rw [partition_files_eq] at h
  cases hp : processFiles c.bodies [] (sortLe (fun x y => strLeB x.1 y.1) c.files) with
  | error err =>
    rw [hp] at h
    have h2 : (Except.error err : Except Err FilesPartitions) = Except.ok res := h
    exact absurd h2 (by simp)
  | ok r =>
    obtain ⟨b1, kbb1, pf1⟩ := r
    rw [hp] at h
    have h2 : Except.ok
        (⟨(allocLoop b1 (sortLe (fun x y => Nat.ble x.1 y.1) kbb1)
            ⟨[], [], [], []⟩).partitions,
          (allocLoop b1 (sortLe (fun x y => Nat.ble x.1 y.1) kbb1)
            ⟨[], [], [], []⟩).used,
          emitFiles (allocLoop b1 (sortLe (fun x y => Nat.ble x.1 y.1) kbb1)
            ⟨[], [], [], []⟩).b2p pf1⟩ : FilesPartitions) = Except.ok res := h
    have hres : res =
        ⟨(allocLoop b1 (sortLe (fun x y => Nat.ble x.1 y.1) kbb1)
            ⟨[], [], [], []⟩).partitions,
          (allocLoop b1 (sortLe (fun x y => Nat.ble x.1 y.1) kbb1)
            ⟨[], [], [], []⟩).used,
          emitFiles (allocLoop b1 (sortLe (fun x y => Nat.ble x.1 y.1) kbb1)
            ⟨[], [], [], []⟩).b2p pf1⟩ :=
      (Except.ok.inj h2).symm
    subst hres
    intro p hp' i hi'
    have hperm := sortLe_perm (fun x y => strLeB x.1 y.1) c.files
    have hwf' : ∀ e ∈ sortLe (fun x y => strLeB x.1 y.1) c.files,
        e.2.body_id < c.bodies.length :=
      fun e he => hwf e (hperm.mem_iff.mp he)
    have hspec := processFiles_spec c.bodies
      (sortLe (fun x y => strLeB x.1 y.1) c.files) c.bodies [] (b1, kbb1, pf1)
      (List.prefix_refl _) hwf' hp
    have hkbb : kbb1 = kbbFold [] pf1 :=
      processFiles_kbb (sortLe (fun x y => strLeB x.1 y.1) c.files)
        c.bodies [] (b1, kbb1, pf1) hp
    have hknd : ((kbbFold [] pf1).map Prod.fst).Nodup :=
      kbbFold_fst_nodup pf1 [] (by simp)
    have hksnd : ((sortLe (fun x y => Nat.ble x.1 y.1) kbb1).map Prod.fst).Nodup := by
      refine ((sortLe_perm (fun x y => Nat.ble x.1 y.1) kbb1).map
        Prod.fst).nodup_iff.mpr ?_
      rw [hkbb]
      exact hknd
    have hinv : AllocInv b1 ([] ++ sortLe (fun x y => Nat.ble x.1 y.1) kbb1)
        (allocLoop b1 (sortLe (fun x y => Nat.ble x.1 y.1) kbb1) ⟨[], [], [], []⟩) :=
      allocLoop_inv b1 (sortLe (fun x y => Nat.ble x.1 y.1) kbb1) [] _
        (allocInv_init b1)
    obtain ⟨b, hb⟩ := hinv.slots p hp' i hi'
    have hb2p_fst : (allocLoop b1 (sortLe (fun x y => Nat.ble x.1 y.1) kbb1)
        ⟨[], [], [], []⟩).b2p.map Prod.fst =
        (sortLe (fun x y => Nat.ble x.1 y.1) kbb1).map Prod.fst := by
      have hx := hinv.b2p_fst
      simpa using hx
    have hbnd : ((allocLoop b1 (sortLe (fun x y => Nat.ble x.1 y.1) kbb1)
        ⟨[], [], [], []⟩).b2p.map Prod.fst).Nodup := by
      rw [hb2p_fst]
      exact hksnd
    have hfind : assocFind? b (allocLoop b1 (sortLe (fun x y => Nat.ble x.1 y.1) kbb1)
        ⟨[], [], [], []⟩).b2p = some (p, i) :=
      assocFind?_of_mem_nodup hbnd hb
    have hbmem : b ∈ pf1.map (fun pf => pf.body_id) := by
      have h1 : b ∈ (allocLoop b1 (sortLe (fun x y => Nat.ble x.1 y.1) kbb1)
          ⟨[], [], [], []⟩).b2p.map Prod.fst :=
        List.mem_map.mpr ⟨(b, (p, i)), hb, rfl⟩
      rw [hb2p_fst] at h1
      have h2 : b ∈ kbb1.map Prod.fst :=
        ((sortLe_perm (fun x y => Nat.ble x.1 y.1) kbb1).map Prod.fst).mem_iff.mp h1
      rw [hkbb] at h2
      have h3 : (assocFind? b (kbbFold [] pf1)).isSome = true :=
        assocFind?_isSome_iff.mpr h2
      rw [kbbFold_find pf1 [] b] at h3
      simp only [assocFind?] at h3
      by_cases hm : b ∈ pf1.map (fun pf => pf.body_id)
      · exact hm
      · rw [if_neg hm] at h3
        exact absurd h3 (by simp)
    obtain ⟨pf, hpfmem, hpfb⟩ := List.mem_map.mp hbmem
    have hfa : List.Forall₂ (fun (e : Str × FilesCollectionItem) (q : PFile) =>
        classifyFile e.1 = some (q.key, q.name))
        (sortLe (fun x y => strLeB x.1 y.1) c.files) pf1 :=
      hspec.2.imp (fun a q hab => hab.1)
    have hnd' : ((sortLe (fun x y => strLeB x.1 y.1) c.files).map Prod.fst).Nodup :=
      (hperm.map Prod.fst).nodup_iff.mpr hnodup
    have hinj' : ∀ e1 ∈ sortLe (fun x y => strLeB x.1 y.1) c.files,
        ∀ e2 ∈ sortLe (fun x y => strLeB x.1 y.1) c.files,
        classifyFile e1.1 = classifyFile e2.1 → e1.1 = e2.1 :=
      fun e1 he1 e2 he2 =>
        hinj e1 (hperm.mem_iff.mp he1) e2 (hperm.mem_iff.mp he2)
    have huniq := pfiles_uniq hfa hnd' hinj'
    have hfindN : findNested
        (pf1.foldl (emitStep (allocLoop b1 (sortLe (fun x y => Nat.ble x.1 y.1) kbb1)
          ⟨[], [], [], []⟩).b2p) []) pf.key pf.name =
        some (emitItem (allocLoop b1 (sortLe (fun x y => Nat.ble x.1 y.1) kbb1)
          ⟨[], [], [], []⟩).b2p pf) :=
      emitFiles_mem_find _ pf1 [] pf hpfmem
        (fun q hq hqk hqn => huniq q hq pf hpfmem hqk hqn)
    have hitem : emitItem (allocLoop b1 (sortLe (fun x y => Nat.ble x.1 y.1) kbb1)
        ⟨[], [], [], []⟩).b2p pf = ⟨pf.f.metadata, p, i⟩ := by
      simp [emitItem, hpfb, hfind]
    unfold findNested at hfindN
    obtain ⟨inner, houter, hinner⟩ := Option.bind_eq_some.mp hfindN
    exact ⟨(pf.key, inner), assocFind?_mem houter,
      (pf.name, emitItem (allocLoop b1 (sortLe (fun x y => Nat.ble x.1 y.1) kbb1)
        ⟨[], [], [], []⟩).b2p pf), assocFind?_mem hinner,
      by simp [hitem], by simp [hitem]⟩

/-- Closed witness for `c9_no_orphan_slots` at the two-file collection
`c9_witness_collection`, all hypotheses discharged by evaluation. -/
theorem c9_no_orphan_slots_witness :
    (c9_witness_collection.files.map Prod.fst).Nodup ∧
    (∀ e ∈ c9_witness_collection.files,
      e.2.body_id < c9_witness_collection.bodies.length) ∧
    (∀ p, p < c9_witness_res.partitions.length →
      ∀ i, i < (c9_witness_res.partitions.getD p []).length →
      ∃ e ∈ c9_witness_res.files, ∃ e2 ∈ e.2,
        e2.2.partition_id = p ∧ e2.2.body_id = i) :=
  ⟨by decide, by decide,
   c9_no_orphan_slots c9_witness_collection (by decide) (by decide) (by decide)
     c9_witness_res (by decide)⟩

theorem filesAdd_outer_keys {acc : List (Str × List (Str × FilesPartitionsItem))}
    {key name : Str} {it : FilesPartitionsItem}
    {e : Str × List (Str × FilesPartitionsItem)}
    (h : e ∈ filesAdd acc key name it) : e ∈ acc ∨ e.1 = key := by
  unfold filesAdd at h
  cases hf : assocFind? key acc with
  | some w =>
    rw [hf] at h
    have h2 : e ∈ assocUpdate acc key (fun inner => dictInsert inner name it) := h
    obtain ⟨e0, he0, hc⟩ := assocUpdate_mem h2
    rcases hc with ⟨hk, hee⟩ | ⟨hk, hee⟩
    · right
      rw [hee]
    · left
      rw [hee]
      exact he0
  | none =>
    rw [hf] at h
    have h2 : e ∈ acc ++ [(key, [(name, it)])] := h
    rcases List.mem_append.mp h2 with h1 | h1
    · exact Or.inl h1
    · right
      rw [List.mem_singleton] at h1
      rw [h1]

theorem emitFold_outer_keys (b2p : List (Nat × (Nat × Nat))) (pfiles : List PFile) :
    ∀ (acc : List (Str × List (Str × FilesPartitionsItem)))
      (e : Str × List (Str × FilesPartitionsItem)),
    e ∈ pfiles.foldl (emitStep b2p) acc →
    e ∈ acc ∨ ∃ pf ∈ pfiles, e.1 = pf.key := by
  induction pfiles with
  | nil =>
    intro acc e h
    exact Or.inl h
  | cons p0 rest ih =>
    intro acc e h
    have h' : e ∈ rest.foldl (emitStep b2p) (emitStep b2p acc p0) := h
    rcases ih _ e h' with h1 | ⟨pf, hpf, hk⟩
    · have h1' : e ∈ filesAdd acc p0.key p0.name (emitItem b2p p0) := h1
      rcases filesAdd_outer_keys h1' with h2 | h2
      · exact Or.inl h2
      · exact Or.inr ⟨p0, List.mem_cons_self _ _, h2⟩
    · exact Or.inr ⟨pf, List.mem_cons_of_mem _ hpf, hk⟩

theorem partition_files_ok_spec (c : FilesCollection) (res : FilesPartitions)
    (h : partition_files c = .ok res) :
    ∃ b1 kbb1 pf1,
      processFiles c.bodies [] (sortLe (fun x y => strLeB x.1 y.1) c.files) =
        .ok (b1, kbb1, pf1) ∧
      res = ⟨(allocLoop b1 (sortLe (fun x y => Nat.ble x.1 y.1) kbb1)
                ⟨[], [], [], []⟩).partitions,
             (allocLoop b1 (sortLe (fun x y => Nat.ble x.1 y.1) kbb1)
                ⟨[], [], [], []⟩).used,
             emitFiles (allocLoop b1 (sortLe (fun x y => Nat.ble x.1 y.1) kbb1)
                ⟨[], [], [], []⟩).b2p pf1⟩ := by
  rw [partition_files_eq] at h
  cases hp : processFiles c.bodies [] (sortLe (fun x y => strLeB x.1 y.1) c.files) with
  | error err =>
    rw [hp] at h
    have h2 : (Except.error err : Except Err FilesPartitions) = Except.ok res := h
    exact absurd h2 (by simp)
  | ok r =>
    obtain ⟨b1, kbb1, pf1⟩ := r
    rw [hp] at h
    have h2 : Except.ok
        (⟨(allocLoop b1 (sortLe (fun x y => Nat.ble x.1 y.1) kbb1)
            ⟨[], [], [], []⟩).partitions,
          (allocLoop b1 (sortLe (fun x y => Nat.ble x.1 y.1) kbb1)
            ⟨[], [], [], []⟩).used,
          emitFiles (allocLoop b1 (sortLe (fun x y => Nat.ble x.1 y.1) kbb1)
            ⟨[], [], [], []⟩).b2p pf1⟩ : FilesPartitions) = Except.ok res := h
    exact ⟨b1, kbb1, pf1, rfl, (Except.ok.inj h2).symm⟩

/-- C3: for every collection accepted by `partition_files` and every
tenant entry `(t, tfiles)` of the resulting `files` dict, the
`used_partitions` lookup for `t` succeeds, and the tenant record built by
`CryptoBlob.collect` has, at every index `i` of the master partition-key
list, the master key `partition_keys[i]` when `i ∈ used_partitions[t]`
and the empty byte string otherwise. -/
theorem c3_tenant_partition_key_holes (c : FilesCollection) (res : FilesPartitions)
    (h : partition_files c = .ok res) (partition_keys : List Bytes)
    (t : Str) (tfiles : List (Str × FilesPartitionsItem))
    (hmem : (t, tfiles) ∈ res.files) (ht : t ≠ []) :
    ∃ used, assocFind? t res.used_partitions = some used ∧
      (tenantRecord partition_keys res t tfiles).partition_keys.length =
        partition_keys.length ∧
      ∀ i, i < partition_keys.length →
        (tenantRecord partition_keys res t tfiles).partition_keys.getD i [] =
          (if i ∈ used then partition_keys.getD i [] else []) := by
  obtain ⟨b1, kbb1, pf1, hp, hres⟩ := partition_files_ok_spec c res h
  subst hres
  have hout : (t, tfiles) ∈ pf1.foldl (emitStep (allocLoop b1
      (sortLe (fun x y => Nat.ble x.1 y.1) kbb1) ⟨[], [], [], []⟩).b2p) [] := hmem
  rcases emitFold_outer_keys _ pf1 [] (t, tfiles) hout with h1 | ⟨pf, hpf, hk⟩
  · exact absurd h1 (List.not_mem_nil _)
  · have hk' : t = pf.key := hk
    have hkbb : kbb1 = kbbFold [] pf1 :=
      processFiles_kbb (sortLe (fun x y => strLeB x.1 y.1) c.files)
        c.bodies [] (b1, kbb1, pf1) hp
    have hinv : AllocInv b1 ([] ++ sortLe (fun x y => Nat.ble x.1 y.1) kbb1)
        (allocLoop b1 (sortLe (fun x y => Nat.ble x.1 y.1) kbb1) ⟨[], [], [], []⟩) :=
      allocLoop_inv b1 (sortLe (fun x y => Nat.ble x.1 y.1) kbb1) [] _
        (allocInv_init b1)
    have hvk : pf.key ∈ visSet pf1 pf.body_id := by
      refine List.mem_toFinset.mpr ?_
      refine List.mem_map.mpr ⟨pf, ?_, rfl⟩
      exact List.mem_filter.mpr ⟨hpf, by simp⟩
    have hkbbmem : (pf.body_id, visSet pf1 pf.body_id) ∈
        sortLe (fun x y => Nat.ble x.1 y.1) kbb1 := by
      refine (sortLe_perm (fun x y => Nat.ble x.1 y.1) kbb1).mem_iff.mpr ?_
      rw [hkbb]
      exact (kbbFold_mem_iff pf1).mpr ⟨List.mem_map.mpr ⟨pf, hpf, rfl⟩, rfl⟩
    have hsome := hinv.used_some (pf.body_id, visSet pf1 pf.body_id)
      (by simpa using hkbbmem) pf.key hvk
    obtain ⟨used, hused⟩ := Option.isSome_iff_exists.mp hsome
    have hfound : assocFind? t (allocLoop b1 (sortLe (fun x y => Nat.ble x.1 y.1)
        kbb1) ⟨[], [], [], []⟩).used = some used := by
      rw [hk']
      exact hused
    refine ⟨used, hfound, ?_, ?_⟩
    · simp [tenantRecord, List.enum_length]
    · intro i hi
      simp [tenantRecord, List.getD_eq_getElem?_getD, List.getElem?_map,
        List.getElem?_enum, List.getElem?_eq_getElem hi, hfound]

/-- Closed witness for `c3_tenant_partition_key_holes` at the tenant `t`
of `c9_witness_collection`, all hypotheses discharged by evaluation. -/
theorem c3_tenant_partition_key_holes_witness :
    ((([116], [([98], (⟨⟨0, 0⟩, 0, 0⟩ : FilesPartitionsItem))]) :
        Str × List (Str × FilesPartitionsItem)) ∈ c9_witness_res.files) ∧
    ∃ used, assocFind? [116] c9_witness_res.used_partitions = some used ∧
      (tenantRecord [[7]] c9_witness_res [116]
        [([98], ⟨⟨0, 0⟩, 0, 0⟩)]).partition_keys.length =
        ([[7]] : List Bytes).length ∧
      ∀ i, i < ([[7]] : List Bytes).length →
        (tenantRecord [[7]] c9_witness_res [116]
          [([98], ⟨⟨0, 0⟩, 0, 0⟩)]).partition_keys.getD i [] =
          (if i ∈ used then ([[7]] : List Bytes).getD i [] else []) :=
  ⟨by decide,
   c3_tenant_partition_key_holes c9_witness_collection c9_witness_res (by decide)
     [[7]] [116] [([98], ⟨⟨0, 0⟩, 0, 0⟩)] (by decide) (by decide)⟩

theorem issueStep_max_le (supply : Nat → Bytes × Bytes) (st : IssueSt) (i : Str) :
    st.max_id ≤ (issueStep supply st i).max_id := by
  unfold issueStep
  by_cases hi : i = []
  · rw [if_pos hi]
  · rw [if_neg hi]
    cases hf : assocFind? i st.known with
    | some w => exact Nat.le_refl _
    | none => exact Nat.le_succ _

theorem issueKeys_max_le (supply : Nat → Bytes × Bytes) (names : List Str) :
    ∀ st : IssueSt, st.max_id ≤ (issueKeys supply names st).max_id := by
  induction names with
  | nil =>
    intro st
    exact Nat.le_refl _
  | cons n rest ih =>
    intro st
    exact (issueStep_max_le supply st n).trans (ih (issueStep supply st n))

theorem issueStep_find_preserve (supply : Nat → Bytes × Bytes) (st : IssueSt)
    (i : Str) {j : Str} {k : TenantKeys} (h : assocFind? j st.known = some k) :
    assocFind? j (issueStep supply st i).known = some k := by
  unfold issueStep
  by_cases hi : i = []
  · rw [if_pos hi]
    exact h
  · rw [if_neg hi]
    cases hf : assocFind? i st.known with
    | some w => exact h
    | none =>
      show assocFind? j (dictInsert st.known i _) = some k
      have hij : j ≠ i := by
        intro hh
        rw [hh, hf] at h
        exact absurd h (by simp)
      rw [assocFind?_dictInsert_ne _ _ _ hij]
      exact h

theorem issueKeys_find_preserve (supply : Nat → Bytes × Bytes) (names : List Str) :
    ∀ (st : IssueSt) {j : Str} {k : TenantKeys},
    assocFind? j st.known = some k →
    assocFind? j (issueKeys supply names st).known = some k := by
  induction names with
  | nil =>
    intro st j k h
    exact h
  | cons n rest ih =>
    intro st j k h
    exact ih (issueStep supply st n) (issueStep_find_preserve supply st n h)

theorem issueStep_bound (supply : Nat → Bytes × Bytes) (st : IssueSt) (i : Str)
    (hb : ∀ e ∈ st.known, e.2.key_id ≤ st.max_id) :
    ∀ e ∈ (issueStep supply st i).known, e.2.key_id ≤ (issueStep supply st i).max_id := by
  unfold issueStep
  by_cases hi : i = []
  · rw [if_pos hi]
    exact hb
  · rw [if_neg hi]
    cases hf : assocFind? i st.known with
    | some w => exact hb
    | none =>
      intro e he
      have he2 : e ∈ dictInsert st.known i
          ⟨i, st.max_id + 1, (supply st.minted).1, (supply st.minted).2⟩ := he
      rcases dictInsert_mem he2 with ⟨h1, _⟩ | ⟨_, h2⟩
      · exact (hb e h1).trans (Nat.le_succ _)
      · rw [h2]

theorem issueKeys_bound (supply : Nat → Bytes × Bytes) (names : List Str) :
    ∀ st : IssueSt, (∀ e ∈ st.known, e.2.key_id ≤ st.max_id) →
    ∀ e ∈ (issueKeys supply names st).known,
      e.2.key_id ≤ (issueKeys supply names st).max_id := by
  induction names with
  | nil =>
    intro st hb
    exact hb
  | cons n rest ih =>
    intro st hb
    exact ih (issueStep supply st n) (issueStep_bound supply st n hb)

theorem issueKeys_fresh (supply : Nat → Bytes × Bytes) (names : List Str) :
    ∀ (st : IssueSt) (i : Str) (k : TenantKeys),
    assocFind? i st.known = none →
    assocFind? i (issueKeys supply names st).known = some k →
    st.max_id < k.key_id := by
  induction names with
  | nil =>
    intro st i k h0 h1
    have h1x : assocFind? i st.known = some k := h1
    rw [h0] at h1x
    exact absurd h1x (by simp)
  | cons n rest ih =>
    intro st i k h0 h1
    have h1' : assocFind? i (issueKeys supply rest (issueStep supply st n)).known =
        some k := h1
    cases hf : assocFind? i (issueStep supply st n).known with
    | none =>
      exact Nat.lt_of_le_of_lt (issueStep_max_le supply st n)
        (ih (issueStep supply st n) i k hf h1')
    | some k' =>
      have hk' : k = k' := by
        have := issueKeys_find_preserve supply rest (issueStep supply st n) hf
        rw [h1'] at this
        exact Option.some.inj this
      subst hk'
      unfold issueStep at hf
      by_cases hi : n = []
      · rw [if_pos hi] at hf
        rw [h0] at hf
        exact absurd hf (by simp)
      · rw [if_neg hi] at hf
        cases hq : assocFind? n st.known with
        | some w =>
          rw [hq] at hf
          have hf2 : assocFind? i st.known = some k := hf
          rw [h0] at hf2
          exact absurd hf2 (by simp)
        | none =>
          rw [hq] at hf
          have hf2 : assocFind? i (dictInsert st.known n
              ⟨n, st.max_id + 1, (supply st.minted).1, (supply st.minted).2⟩) =
              some k := hf
          by_cases hin : i = n
          · rw [hin, assocFind?_dictInsert_self] at hf2
            have hk2 : k = ⟨n, st.max_id + 1, (supply st.minted).1,
                (supply st.minted).2⟩ := (Option.some.inj hf2).symm
            rw [hk2]
            exact Nat.lt_succ_self _
          · rw [assocFind?_dictInsert_ne _ _ _ hin] at hf2
            rw [h0] at hf2
            exact absurd hf2 (by simp)

theorem issueKeys_issues (supply : Nat → Bytes × Bytes) (names : List Str) :
    ∀ (st : IssueSt) (i : Str), i ∈ names → i ≠ [] →
    (assocFind? i (issueKeys supply names st).known).isSome = true := by
  induction names with
  | nil =>
    intro st i h _
    exact absurd h (List.not_mem_nil _)
  | cons n rest ih =>
    intro st i hmem hne
    rcases List.mem_cons.mp hmem with h0 | h0
    · have hs : ∃ k, assocFind? i (issueStep supply st n).known = some k := by
        subst h0
        unfold issueStep
        rw [if_neg hne]
        cases hq : assocFind? i st.known with
        | some w => exact ⟨w, hq⟩
        | none =>
          refine ⟨⟨i, st.max_id + 1, (supply st.minted).1, (supply st.minted).2⟩, ?_⟩
          show assocFind? i (dictInsert st.known i _) = _
          rw [assocFind?_dictInsert_self]
      obtain ⟨k, hk⟩ := hs
      have := issueKeys_find_preserve supply rest (issueStep supply st n) hk
      show (assocFind? i (issueKeys supply rest (issueStep supply st n)).known).isSome =
        true
      rw [this]
      rfl
    · exact ih (issueStep supply st n) i h0 hne

theorem keysByNames_mem (existing : List TenantKeys) :
    ∀ {acc : List (Str × TenantKeys)} {e : Str × TenantKeys},
    e ∈ existing.foldl (fun a tk => dictInsert a tk.tenant_name tk) acc →
    e ∈ acc ∨ ∃ tk ∈ existing, e = (tk.tenant_name, tk) := by
  induction existing with
  | nil =>
    intro acc e h
    exact Or.inl h
  | cons tk rest ih =>
    intro acc e h
    have h' : e ∈ rest.foldl (fun a tk => dictInsert a tk.tenant_name tk)
        (dictInsert acc tk.tenant_name tk) := h
    rcases ih h' with h1 | ⟨tk', htk', he⟩
    · rcases dictInsert_mem h1 with ⟨h2, _⟩ | ⟨h2, h3⟩
      · exact Or.inl h2
      · exact Or.inr ⟨tk, List.mem_cons_self _ _, Prod.ext h2 h3⟩
    · exact Or.inr ⟨tk', List.mem_cons_of_mem _ htk', he⟩

/-- C5: over the key-issuing loop of `CryptoBlob.collect` seeded with
`existing_tenants_keys` whose key ids are bounded by the blob's `max_id`:
`max_id` never decreases, every non-master principal in the iterated
names receives a key, principals already known retain their exact
`TenantKeys` record (so their prior `key_id` and keys), every key id in
the final map is bounded by the final `max_id`, and every newly issued
key id is strictly greater than the initial `max_id` — hence strictly
greater than every previously issued key id, so key ids are never
reused. -/
theorem c5_key_id_freshness (supply : Nat → Bytes × Bytes) (names : List Str)
    (max_id : Nat) (existing : List TenantKeys)
    (hb : ∀ tk ∈ existing, tk.key_id ≤ max_id) :
    max_id ≤ (issueKeys supply names ⟨max_id, keysByNames existing, 0⟩).max_id ∧
    (∀ i ∈ names, i ≠ [] →
      (assocFind? i (issueKeys supply names
        ⟨max_id, keysByNames existing, 0⟩).known).isSome = true) ∧
    (∀ i k, assocFind? i (keysByNames existing) = some k →
      assocFind? i (issueKeys supply names
        ⟨max_id, keysByNames existing, 0⟩).known = some k) ∧
    (∀ e ∈ (issueKeys supply names ⟨max_id, keysByNames existing, 0⟩).known,
      e.2.key_id ≤ (issueKeys supply names ⟨max_id, keysByNames existing, 0⟩).max_id) ∧
    (∀ i k, assocFind? i (keysByNames existing) = none →
      assocFind? i (issueKeys supply names
        ⟨max_id, keysByNames existing, 0⟩).known = some k →
      max_id < k.key_id) := by
  have hbk : ∀ e ∈ keysByNames existing, e.2.key_id ≤ max_id := by
    intro e he
    rcases keysByNames_mem existing he with h1 | ⟨tk, htk, he2⟩
    · exact absurd h1 (List.not_mem_nil _)
    · rw [he2]
      exact hb tk htk
  refine ⟨issueKeys_max_le supply names ⟨max_id, keysByNames existing, 0⟩,
    ?_, ?_, ?_, ?_⟩
  · intro i hi hne
    exact issueKeys_issues supply names _ i hi hne
  · intro i k hk
    exact issueKeys_find_preserve supply names _ hk
  · exact issueKeys_bound supply names _ hbk
  · intro i k h0 h1
    exact issueKeys_fresh supply names _ i k h0 h1

/-- Closed witness for `c5_key_id_freshness`: one existing tenant `u`
with key id 3 under `max_id = 5`, one new tenant `t`. -/
theorem c5_key_id_freshness_witness :
    (∀ tk ∈ ([⟨[117], 3, [], []⟩] : List TenantKeys), tk.key_id ≤ 5) ∧
    (5 ≤ (issueKeys (fun _ => ([], [])) [[116]]
      ⟨5, keysByNames [⟨[117], 3, [], []⟩], 0⟩).max_id ∧
    (∀ i ∈ [[116]], i ≠ ([] : Str) →
      (assocFind? i (issueKeys (fun _ => ([], [])) [[116]]
        ⟨5, keysByNames [⟨[117], 3, [], []⟩], 0⟩).known).isSome = true) ∧
    (∀ i k, assocFind? i (keysByNames [⟨[117], 3, [], []⟩]) = some k →
      assocFind? i (issueKeys (fun _ => ([], [])) [[116]]
        ⟨5, keysByNames [⟨[117], 3, [], []⟩], 0⟩).known = some k) ∧
    (∀ e ∈ (issueKeys (fun _ => ([], [])) [[116]]
        ⟨5, keysByNames [⟨[117], 3, [], []⟩], 0⟩).known,
      e.2.key_id ≤ (issueKeys (fun _ => ([], [])) [[116]]
        ⟨5, keysByNames [⟨[117], 3, [], []⟩], 0⟩).max_id) ∧
    (∀ i k, assocFind? i (keysByNames [⟨[117], 3, [], []⟩]) = none →
      assocFind? i (issueKeys (fun _ => ([], [])) [[116]]
        ⟨5, keysByNames [⟨[117], 3, [], []⟩], 0⟩).known = some k →
      5 < k.key_id)) :=
  ⟨by decide,
   c5_key_id_freshness (fun _ => ([], [])) [[116]] 5 [⟨[117], 3, [], []⟩]
     (by decide)⟩

/-- C10: `encrypt` and `decrypt` accept a key exactly when it has
`SecretBox.KEY_SIZE = 32` bytes: with a 32-byte key the assertion passes
and the call reduces to the underlying NaCl box, for any box model; with
a key of any other length both operations fail with an assertion error —
before any cryptographic processing (the box functions are never
consulted) and not with a `CRYPTO_ERROR`. -/
theorem c10_key_size_assertion (m : NaclModel) (blob key : Bytes) :
    (key.length = KEY_SIZE →
      encrypt m blob key = .ok (m.boxEncrypt key blob) ∧
      decrypt m blob key = m.boxDecrypt key blob) ∧
    (key.length ≠ KEY_SIZE →
      encrypt m blob key = .error .ASSERTION_ERROR ∧
      decrypt m blob key = .error .ASSERTION_ERROR ∧
      encrypt m blob key ≠ .error .CRYPTO_ERROR ∧
      decrypt m blob key ≠ .error .CRYPTO_ERROR) := by
  constructor
  · intro h
    exact ⟨by simp [encrypt, h], by simp [decrypt, h]⟩
  · intro h
    refine ⟨by simp [encrypt, h], by simp [decrypt, h], ?_, ?_⟩
    · simp [encrypt, h]
    · simp [decrypt, h]

/-- C7: for every message and every keypair produced by
`asymm_new_keypair`, decryption reverses encryption: under the NaCl
contracts (sealed-box, secret-box and signature roundtrips, 32-byte
public and private keys) and the 16-bit framing bound,
`asymm_decrypt (asymm_encrypt blob writer_key) reader_key` reverses the
uint16-be length framing, opens the sealed box, symmetrically decrypts,
verifies the signature and returns the original message. -/
theorem c7_asymm_roundtrip (m : NaclModel) (blob rpriv sk ek : Bytes)
    (hpub : (m.pub rpriv).length = 32)
    (hrpriv : rpriv.length = 32)
    (hsealed : ∀ msg, m.sealedDec rpriv (m.sealedEnc (m.pub rpriv) msg) = .ok msg)
    (hbox : ∀ k msg, m.boxDecrypt k (m.boxEncrypt k msg) = .ok msg)
    (hsig : ∀ msg, m.verify (m.verifyKey sk) (m.sign sk msg) = .ok msg)
    (hlen : (m.sealedEnc (m.pub rpriv) ek).length < 65536) :
    asymm_decrypt m (asymm_encrypt m blob (asymm_new_keypair m rpriv sk).1 ek)
      (asymm_new_keypair m rpriv sk).2 = .ok blob := by
  have htake : (m.pub rpriv ++ sk).take 32 = m.pub rpriv := List.take_left' hpub
  have hdrop : (m.pub rpriv ++ sk).drop 32 = sk := List.drop_left' hpub
  have htake2 : (rpriv ++ m.verifyKey sk).take 32 = rpriv := List.take_left' hrpriv
  have hdrop2 : (rpriv ++ m.verifyKey sk).drop 32 = m.verifyKey sk :=
    List.drop_left' hrpriv
  have henc : asymm_encrypt m blob (asymm_new_keypair m rpriv sk).1 ek =
      (m.sealedEnc (m.pub rpriv) ek).length / 256 ::
      (m.sealedEnc (m.pub rpriv) ek).length % 256 ::
      (m.sealedEnc (m.pub rpriv) ek ++ m.boxEncrypt ek (m.sign sk blob)) := by
    simp [asymm_encrypt, asymm_new_keypair, htake, hdrop, u16be]
  rw [henc]
  have hsz : (m.sealedEnc (m.pub rpriv) ek).length / 256 * 256 +
      (m.sealedEnc (m.pub rpriv) ek).length % 256 =
      (m.sealedEnc (m.pub rpriv) ek).length := by omega
  have hdropE : List.drop (2 + (m.sealedEnc (m.pub rpriv) ek).length)
      ((m.sealedEnc (m.pub rpriv) ek).length / 256 ::
        (m.sealedEnc (m.pub rpriv) ek).length % 256 ::
        (m.sealedEnc (m.pub rpriv) ek ++ m.boxEncrypt ek (m.sign sk blob))) =
      List.drop (m.sealedEnc (m.pub rpriv) ek).length
        (m.sealedEnc (m.pub rpriv) ek ++ m.boxEncrypt ek (m.sign sk blob)) := by
    rw [Nat.add_comm]
    rfl
  show asymm_decrypt m _ (rpriv ++ m.verifyKey sk) = .ok blob
  unfold asymm_decrypt
  simp only [List.getD_cons_zero, List.getD_cons_succ, List.drop_succ_cons,
    List.drop_zero, hsz, hdropE, htake2, hdrop2, List.take_left, List.drop_left,
    hsealed, hbox, hsig]

/-- Closed witness for `c7_asymm_roundtrip` at the degenerate NaCl model,
every hypothesis discharged by evaluation. -/
theorem c7_asymm_roundtrip_witness :
    (naclToy.pub (List.replicate 32 0)).length = 32 ∧
    (List.replicate 32 0 : Bytes).length = 32 ∧
    asymm_decrypt naclToy
      (asymm_encrypt naclToy [9]
        (asymm_new_keypair naclToy (List.replicate 32 0) [5]).1 [1, 2])
      (asymm_new_keypair naclToy (List.replicate 32 0) [5]).2 = .ok [9] :=
  ⟨by decide, by decide,
   c7_asymm_roundtrip naclToy [9] (List.replicate 32 0) [5] [1, 2] (by decide)
     (by decide) (fun msg => rfl) (fun k msg => rfl) (fun msg => rfl) (by decide)⟩

theorem foldl_digits (ds : List Nat) : ∀ a : Nat,
    List.foldl (fun x d => x * 10 + d) a ds.reverse =
      a * 10 ^ ds.length + Nat.ofDigits 10 ds := by
  induction ds with
  | nil =>
    intro a
    simp
  | cons d t ih =>
    intro a
    rw [List.reverse_cons, List.foldl_append, ih a]
    simp only [List.foldl_cons, List.foldl_nil, Nat.ofDigits_cons, List.length_cons,
      Nat.pow_succ]
    push_cast
    ring

theorem strToNat_natToStr (n : Nat) : strToNat (natToStr n) = n := by
  unfold natToStr strToNat
  by_cases h : n = 0
  · subst h
    decide
  · rw [if_neg h]
    have hmap : ∀ (l : List Nat) (a : Nat),
        List.foldl (fun x c => x * 10 + (c - 48)) a (l.map (fun d => d + 48)) =
        List.foldl (fun x d => x * 10 + d) a l := by
      intro l
      induction l with
      | nil =>
        intro a
        rfl
      | cons d t ih =>
        intro a
        simp only [List.map_cons, List.foldl_cons, Nat.add_sub_cancel]
        exact ih _
    rw [hmap (Nat.digits 10 n).reverse 0, foldl_digits (Nat.digits 10 n) 0]
    simp [Nat.ofDigits_digits]

/-- C6: loading a blob produced by `dump_to_blob` of a version-1
`CryptoBlob` restores a state whose dump is byte-identical — `dump ∘
load` is the identity on well-formed blobs.  The avro codecs are
parameterized with their stream contracts as hypotheses; the decimal
round-trip of the tenant-map keys (`str` on dump, `int` on load) is
proved, not assumed. -/
theorem c6_load_dump_identity (hcodec : AvroCodec Int) (bcodec : AvroCodec BlobData)
    (hh : ∀ v rest, hcodec.read (hcodec.write v ++ rest) = .ok (v, rest))
    (hb : ∀ x rest, bcodec.read (bcodec.write x ++ rest) = .ok (x, rest))
    (cb : CryptoBlobSt) (hv : cb.version = 1) :
    ∃ cb2, load_from_blob hcodec bcodec (dump_to_blob hcodec bcodec cb) = .ok cb2 ∧
      dump_to_blob hcodec bcodec cb2 = dump_to_blob hcodec bcodec cb := by
  have hb0 := hb ⟨cb.max_id, cb.xmaster, cb.xpartitions,
    cb.xtenants.map (fun e => (natToStr e.1, e.2))⟩ []
  rw [List.append_nil] at hb0
  have hround : (cb.xtenants.map (fun e => (natToStr e.1, e.2))).map
      (fun e => (strToNat e.1, e.2)) = cb.xtenants := by
    rw [List.map_map]
    have hfun : ((fun e : Str × Bytes => (strToNat e.1, e.2)) ∘
        (fun e : Nat × Bytes => (natToStr e.1, e.2))) = fun e => e := by
      funext e
      simp [strToNat_natToStr]
    rw [hfun]
    exact List.map_id' cb.xtenants
  refine ⟨⟨cb.version, cb.max_id, cb.xpartitions, cb.xmaster, cb.xtenants⟩, ?_, rfl⟩
  unfold load_from_blob dump_to_blob
  rw [hh cb.version]
  simp [hb0, hround, hv]

/-- Closed witness for `c6_load_dump_identity` at the toy codecs and a
concrete version-1 blob state. -/
theorem c6_load_dump_identity_witness :
    ((⟨1, 3, [[1]], [2], [(4, [5])]⟩ : CryptoBlobSt).version = 1) ∧
    ∃ cb2, load_from_blob hcodecToy bcodecToy
        (dump_to_blob hcodecToy bcodecToy ⟨1, 3, [[1]], [2], [(4, [5])]⟩) =
        .ok cb2 ∧
      dump_to_blob hcodecToy bcodecToy cb2 =
        dump_to_blob hcodecToy bcodecToy ⟨1, 3, [[1]], [2], [(4, [5])]⟩ :=
  ⟨rfl,
   c6_load_dump_identity hcodecToy bcodecToy
     (fun v rest => by simp [hcodecToy, Encodable.encodek])
     (fun x rest => by simp [bcodecToy, Encodable.encodek, blobDataTuple])
     ⟨1, 3, [[1]], [2], [(4, [5])]⟩ rfl⟩

theorem mapExcept_ok {α β : Type} (f : α → Except Err β) (g : α → β) :
    ∀ l : List α, (∀ a ∈ l, f a = .ok (g a)) → mapExcept f l = .ok (l.map g) := by
  intro l
  induction l with
  | nil =>
    intro _
    rfl
  | cons a t ih =>
    intro h
    have ha := h a (List.mem_cons_self _ _)
    have ht := ih (fun b hb => h b (List.mem_cons_of_mem _ hb))
    simp [mapExcept, ha, ht]

theorem unseal_parts (m : NaclModel) (pcodec : AvroCodec (List Bytes))
    (hbox : ∀ k msg, k.length = KEY_SIZE → m.boxDecrypt k (m.boxEncrypt k msg) = .ok msg)
    (hp : ∀ x rest, pcodec.read (pcodec.write x ++ rest) = .ok (x, rest)) :
    ∀ (pk : List Bytes) (parts : List (List Bytes)),
    pk.length = parts.length → (∀ k ∈ pk, k.length = KEY_SIZE) →
    mapExcept (fun kp =>
        match decrypt m kp.2 kp.1 with
        | .error e => .error e
        | .ok plain =>
          match pcodec.read plain with
          | .error e => .error e
          | .ok p => .ok p.1)
      (pk.zip ((pk.zip parts).map
        (fun kp => m.boxEncrypt kp.1 (pcodec.write kp.2)))) = .ok parts := by
  intro pk
  induction pk with
  | nil =>
    intro parts hlen _
    have h0 : parts = [] := List.length_eq_zero.mp hlen.symm
    subst h0
    rfl
  | cons k pkt ih =>
    intro parts hlen hk
    cases parts with
    | nil => simp at hlen
    | cons q pt =>
      have hk0 : k.length = KEY_SIZE := hk k (List.mem_cons_self _ _)
      have hdec : decrypt m (m.boxEncrypt k (pcodec.write q)) k = .ok (pcodec.write q) := by
        unfold decrypt
        rw [if_pos hk0]
        exact hbox k (pcodec.write q) hk0
      have hread : pcodec.read (pcodec.write q) = .ok (q, []) := by
        have h0 := hp q []
        rwa [List.append_nil] at h0
      have hrest := ih pt (by simpa using hlen) (fun w hw => hk w (List.mem_cons_of_mem _ hw))
      simp only [List.zip] at hrest
      simp [mapExcept, hdec, hread, hrest, List.zip]

theorem forall₂_mem_left {α β : Type} {R : α → β → Prop} {l1 : List α} {l2 : List β}
    (h : List.Forall₂ R l1 l2) : ∀ {a}, a ∈ l1 → ∃ b ∈ l2, R a b := by
  induction h with
  | nil =>
    intro a ha
    exact absurd ha (List.not_mem_nil _)
  | cons hR hFa ih =>
    intro a ha
    rcases List.mem_cons.mp ha with h1 | h1
    · exact ⟨_, List.mem_cons_self _ _, h1 ▸ hR⟩
    · obtain ⟨b, hb, hRb⟩ := ih h1
      exact ⟨b, List.mem_cons_of_mem _ hb, hRb⟩

theorem forall₂_mem_right {α β : Type} {R : α → β → Prop} {l1 : List α} {l2 : List β}
    (h : List.Forall₂ R l1 l2) : ∀ {b}, b ∈ l2 → ∃ a ∈ l1, R a b := by
  induction h with
  | nil =>
    intro b hb
    exact absurd hb (List.not_mem_nil _)
  | cons hR hFa ih =>
    intro b hb
    rcases List.mem_cons.mp hb with h1 | h1
    · exact ⟨_, List.mem_cons_self _ _, h1 ▸ hR⟩
    · obtain ⟨a, ha, hRa⟩ := ih h1
      exact ⟨a, List.mem_cons_of_mem _ ha, hRa⟩

theorem filesAdd_nested_src {acc : List (Str × List (Str × FilesPartitionsItem))}
    {key name : Str} {it : FilesPartitionsItem} {k : Str}
    {inner : List (Str × FilesPartitionsItem)} {n : Str} {v : FilesPartitionsItem}
    (ho : (k, inner) ∈ filesAdd acc key name it) (hi : (n, v) ∈ inner) :
    (∃ inner0, (k, inner0) ∈ acc ∧ (n, v) ∈ inner0) ∨ (k = key ∧ n = name ∧ v = it) := by
  unfold filesAdd at ho
  cases hf : assocFind? key acc with
  | some w =>
    rw [hf] at ho
    have ho2 : (k, inner) ∈ assocUpdate acc key (fun i2 => dictInsert i2 name it) := ho
    obtain ⟨e0, he0, hc⟩ := assocUpdate_mem ho2
    rcases hc with ⟨hk0, hee⟩ | ⟨hk0, hee⟩
    · have hkk : k = key := congrArg Prod.fst hee
      have hin : inner = dictInsert e0.2 name it := congrArg Prod.snd hee
      rw [hin] at hi
      rcases dictInsert_mem hi with ⟨h1, _⟩ | ⟨h1, h2⟩
      · left
        refine ⟨e0.2, ?_, h1⟩
        rw [hkk, ← hk0]
        exact he0
      · right
        exact ⟨hkk, h1, h2⟩
    · left
      refine ⟨inner, ?_, hi⟩
      rw [hee]
      exact he0
  | none =>
    rw [hf] at ho
    have ho2 : (k, inner) ∈ acc ++ [(key, [(name, it)])] := ho
    rcases List.mem_append.mp ho2 with h1 | h1
    · exact Or.inl ⟨inner, h1, hi⟩
    · rw [List.mem_singleton] at h1
      have hkk : k = key := congrArg Prod.fst h1
      have hin : inner = [(name, it)] := congrArg Prod.snd h1
      rw [hin, List.mem_singleton] at hi
      right
      exact ⟨hkk, congrArg Prod.fst hi, congrArg Prod.snd hi⟩

theorem emitFold_nested_src (b2p : List (Nat × (Nat × Nat))) (pfiles : List PFile) :
    ∀ (acc : List (Str × List (Str × FilesPartitionsItem))) (k : Str)
      (inner : List (Str × FilesPartitionsItem)) (n : Str) (v : FilesPartitionsItem),
    (k, inner) ∈ pfiles.foldl (emitStep b2p) acc → (n, v) ∈ inner →
    (∃ inner0, (k, inner0) ∈ acc ∧ (n, v) ∈ inner0) ∨
    ∃ pf ∈ pfiles, k = pf.key ∧ n = pf.name ∧ v = emitItem b2p pf := by
  induction pfiles with
  | nil =>
    intro acc k inner n v h hi
    exact Or.inl ⟨inner, h, hi⟩
  | cons p0 rest ih =>
    intro acc k inner n v h hi
    have h' : (k, inner) ∈ rest.foldl (emitStep b2p) (emitStep b2p acc p0) := h
    rcases ih _ k inner n v h' hi with ⟨inner0, hm, hv⟩ | ⟨pf, hpf, he⟩
    · have hm' : (k, inner0) ∈ filesAdd acc p0.key p0.name (emitItem b2p p0) := hm
      rcases filesAdd_nested_src hm' hv with ⟨inner1, hm1, hv1⟩ | ⟨h1, h2, h3⟩
      · exact Or.inl ⟨inner1, hm1, hv1⟩
      · exact Or.inr ⟨p0, List.mem_cons_self _ _, h1, h2, h3⟩
    · exact Or.inr ⟨pf, List.mem_cons_of_mem _ hpf, he⟩

theorem pySplitAux_append (sep : Nat) : ∀ (a s acc : Str), sep ∉ a →
    pySplitAux sep (a ++ sep :: s) acc = (acc.reverse ++ a) :: pySplit sep s := by
  intro a
  induction a with
  | nil =>
    intro s acc _
    simp [pySplitAux, pySplit]
  | cons c cs ih =>
    intro s acc ha
    have hc : ¬ c = sep := fun h => ha (h ▸ List.mem_cons_self _ _)
    have hcs : sep ∉ cs := fun h => ha (List.mem_cons_of_mem _ h)
    simp only [List.cons_append, pySplitAux, hc, if_false]
    show pySplitAux sep (cs ++ sep :: s) (c :: acc) =
      (acc.reverse ++ c :: cs) :: pySplit sep s
    rw [ih s (c :: acc) hcs]
    simp

theorem pySplit_append {a s : Str} (ha : slash ∉ a) :
    pySplit slash (a ++ slash :: s) = a :: pySplit slash s := by
  unfold pySplit
  rw [pySplitAux_append slash a s [] ha]
  simp [pySplit]

theorem pySplitAux_no_sep (sep : Nat) : ∀ (s acc : Str), sep ∉ acc →
    ∀ t ∈ pySplitAux sep s acc, sep ∉ t := by
  intro s
  induction s with
  | nil =>
    intro acc hacc t ht
    have ht2 : t ∈ [acc.reverse] := ht
    rw [List.mem_singleton] at ht2
    rw [ht2]
    intro hmem
    exact hacc (List.mem_reverse.mp hmem)
  | cons c cs ih =>
    intro acc hacc t ht
    by_cases hc : c = sep
    · have ht2 : t ∈ acc.reverse :: pySplitAux sep cs [] := by
        simpa [pySplitAux, hc] using ht
      rcases List.mem_cons.mp ht2 with h1 | h1
      · rw [h1]
        intro hmem
        exact hacc (List.mem_reverse.mp hmem)
      · exact ih [] (List.not_mem_nil _) t h1
    · have ht2 : t ∈ pySplitAux sep cs (c :: acc) := by
        simpa [pySplitAux, hc] using ht
      refine ih (c :: acc) ?_ t ht2
      intro hmem
      rcases List.mem_cons.mp hmem with h1 | h1
      · exact hc h1.symm
      · exact hacc h1

theorem pySplit_no_sep {sep : Nat} {s : Str} : ∀ t ∈ pySplit sep s, sep ∉ t :=
  pySplitAux_no_sep sep s [] (List.not_mem_nil _)

theorem pySplitAux_single (sep : Nat) : ∀ (a acc : Str), sep ∉ a →
    pySplitAux sep a acc = [acc.reverse ++ a] := by
  intro a
  induction a with
  | nil =>
    intro acc _
    simp [pySplitAux]
  | cons c cs ih =>
    intro acc ha
    have hc : ¬ c = sep := fun h => ha (h ▸ List.mem_cons_self _ _)
    have hcs : sep ∉ cs := fun h => ha (List.mem_cons_of_mem _ h)
    simp only [pySplitAux, hc, if_false]
    rw [ih (c :: acc) hcs]
    simp

theorem pySplit_single {sep : Nat} {a : Str} (ha : sep ∉ a) : pySplit sep a = [a] := by
  unfold pySplit
  rw [pySplitAux_single sep a [] ha]
  simp

theorem split_join {sep : Nat} : ∀ (l : List Str), l ≠ [] → (∀ t ∈ l, sep ∉ t) →
    pySplit sep (pyJoin sep l) = l := by
  intro l
  induction l with
  | nil =>
    intro h _
    exact absurd rfl h
  | cons a t ih =>
    intro _ hts
    cases t with
    | nil =>
      have hj : pyJoin sep [a] = a := by
        simp [pyJoin, List.intercalate]
      rw [hj, pySplit_single (hts a (List.mem_cons_self _ _))]
    | cons b t2 =>
      have hjoin : pyJoin sep (a :: b :: t2) = a ++ sep :: pyJoin sep (b :: t2) := rfl
      rw [hjoin]
      have hsp : pySplit sep (a ++ sep :: pyJoin sep (b :: t2)) =
          a :: pySplit sep (pyJoin sep (b :: t2)) := by
        have := pySplitAux_append sep a (pyJoin sep (b :: t2)) []
          (hts a (List.mem_cons_self _ _))
        unfold pySplit
        rw [this]
        simp [pySplit]
      rw [hsp, ih (by simp) (fun q hq => hts q (List.mem_cons_of_mem _ hq))]

theorem woPrefix_split {k : Str} (hk : slash ∉ k) (s : Str) :
    pySplit slash (woPrefix k ++ s) = requiredPfx k ++ pySplit slash s := by
  by_cases h : k = []
  · subst h
    have h1 : woPrefix [] ++ s = strLit "master" ++ slash :: s := rfl
    rw [h1, pySplit_append (by decide)]
    rfl
  · have h1 : woPrefix k ++ s = strLit "tenants" ++ slash :: (k ++ slash :: s) := by
      simp only [woPrefix, if_neg h]
      rw [show strLit "tenants/" = strLit "tenants" ++ [slash] from rfl]
      simp [List.append_assoc]
    rw [h1, pySplit_append (by decide), pySplit_append hk]
    simp [requiredPfx, h]

theorem dropTrailingEmpty_snoc (l : List Str) :
    dropTrailingEmpty (l ++ [([] : Str)]) = dropTrailingEmpty l := by
  unfold dropTrailingEmpty
  rw [List.reverse_append]
  simp [List.dropWhile]

theorem abs_target_norm {key : Str} (hk : slash ∉ key) {body : Bytes}
    (htake : (pySplit slash body).take (requiredPfx key).length = requiredPfx key) :
    dropTrailingEmpty (pySplit slash (woPrefix key ++
      pyJoin slash ((pySplit slash body).drop (requiredPfx key).length))) =
    dropTrailingEmpty (pySplit slash body) := by
  rw [woPrefix_split hk]
  by_cases hd : (pySplit slash body).drop (requiredPfx key).length = []
  · rw [hd]
    have hj : pyJoin slash ([] : List Str) = [] := rfl
    rw [hj]
    have hsp : pySplit slash ([] : Str) = [[]] := rfl
    rw [hsp]
    have hbody : pySplit slash body = requiredPfx key := by
      rw [← List.take_append_drop (requiredPfx key).length (pySplit slash body),
        htake, hd, List.append_nil]
    rw [hbody]
    exact dropTrailingEmpty_snoc _
  · rw [split_join _ hd (fun t ht => pySplit_no_sep t (List.mem_of_mem_drop ht))]
    rw [show requiredPfx key ++ (pySplit slash body).drop (requiredPfx key).length =
        pySplit slash body from by
      nth_rewrite 1 [← htake]
      exact List.take_append_drop _ _]

theorem classify_path_rebuild {fname k n : Str} (h : classifyFile fname = some (k, n))
    (hne : pyStartswith fname (strLit "tenants//") = false) :
    woPrefix k ++ n = fname ∧ slash ∉ k := by
  rcases classifyFile_some_inv h with ⟨hm, hk, hn⟩ | ⟨hm, ht, hsf⟩
  · subst hk
    subst hn
    obtain ⟨r, hr⟩ := pyStartswith_iff.mp hm
    refine ⟨?_, List.not_mem_nil _⟩
    rw [hr]
    have hdr : (strLit "master/" ++ r).drop 7 = r := List.drop_left' (by decide)
    rw [hdr]
    rfl
  · obtain ⟨hknotin, hsplit⟩ := splitFirst_some_spec hsf
    obtain ⟨r, hr⟩ := pyStartswith_iff.mp ht
    have hdrop8 : fname.drop 8 = r := by
      rw [hr]
      exact List.drop_left' (by decide)
    have hrr : r = k ++ slash :: n := by
      rw [← hdrop8]
      exact hsplit
    have hfull : fname = strLit "tenants/" ++ (k ++ slash :: n) := by
      rw [hr, hrr]
    have hkne : k ≠ [] := by
      intro hk0
      subst hk0
      have hsw : pyStartswith fname (strLit "tenants//") = true := by
        refine pyStartswith_iff.mpr ⟨n, ?_⟩
        rw [hfull]
        rfl
      rw [hsw] at hne
      simp at hne
    refine ⟨?_, hknotin⟩
    rw [hfull]
    simp only [woPrefix, if_neg hkne]
    rw [show strLit "tenants/" ++ k ++ [slash] ++ n =
        strLit "tenants/" ++ (k ++ ([slash] ++ n)) from by simp [List.append_assoc]]
    rfl

/-- C2: packing a collection with `collect`, unsealing the master record
with the master key, and writing it out reproduces the collection: the
pipeline succeeds, every original file is written at its own path with
its original body bytes and `mtime_ns` (regular files), its original
target (relative symlinks), or a target denoting the same
destination-rooted path (absolute symlinks), and every written path is an
original path.  NaCl and the avro codecs are parameterized under their
roundtrip contracts; the collection satisfies the well-formedness the
filesystem guarantees (distinct paths, in-range bodies, injective
classification, no empty tenant names). -/
theorem c2_pack_writeout_master_roundtrip
    (m : NaclModel) (pcodec : AvroCodec (List Bytes)) (mcodec : AvroCodec MasterData)
    (c : FilesCollection) (res : FilesPartitions)
    (partition_keys : List Bytes) (tenants_keys : List TenantKeys) (master_key : Bytes)
    (hbox : ∀ k msg, k.length = KEY_SIZE → m.boxDecrypt k (m.boxEncrypt k msg) = .ok msg)
    (hp : ∀ x rest, pcodec.read (pcodec.write x ++ rest) = .ok (x, rest))
    (hmc : ∀ x rest, mcodec.read (mcodec.write x ++ rest) = .ok (x, rest))
    (hmk : master_key.length = KEY_SIZE)
    (hpk : ∀ k ∈ partition_keys, k.length = KEY_SIZE)
    (hres : partition_files c = .ok res)
    (hpklen : partition_keys.length = res.partitions.length)
    (hnodup : (c.files.map Prod.fst).Nodup)
    (hwf : ∀ e ∈ c.files, e.2.body_id < c.bodies.length)
    (hinj : ∀ e1 ∈ c.files, ∀ e2 ∈ c.files,
      classifyFile e1.1 = classifyFile e2.1 → e1.1 = e2.1)
    (hkey : ∀ e ∈ c.files, pyStartswith e.1 (strLit "tenants//") = false) :
    ∃ out, packUnsealWriteout m pcodec mcodec c partition_keys tenants_keys
        master_key = .ok out ∧
      (∀ fname f, (fname, f) ∈ c.files →
        (f.metadata.flags &&& SYMLINK = 0 →
          WOut.file fname (c.bodies.getD f.body_id []) f.metadata.mtime_ns ∈ out) ∧
        (f.metadata.flags &&& SYMLINK ≠ 0 → f.metadata.flags &&& SYMLINK_ABS = 0 →
          WOut.link fname (c.bodies.getD f.body_id []) ∈ out) ∧
        (f.metadata.flags &&& SYMLINK ≠ 0 → f.metadata.flags &&& SYMLINK_ABS ≠ 0 →
          ∃ t, WOut.alink fname t ∈ out ∧
            dropTrailingEmpty (pySplit slash t) =
              dropTrailingEmpty (pySplit slash (c.bodies.getD f.body_id [])))) ∧
      (∀ o ∈ out, ∃ e ∈ c.files, woPath o = e.1) := by
  have hxp : mapExcept (fun kp => encrypt m (pcodec.write kp.2) kp.1)
      (partition_keys.zip res.partitions) =
      .ok ((partition_keys.zip res.partitions).map
        (fun kp => m.boxEncrypt kp.1 (pcodec.write kp.2))) := by
    refine mapExcept_ok _ _ _ ?_
    intro kp hkp
    obtain ⟨k1, p1⟩ := kp
    have hk1 : k1 ∈ partition_keys := (List.mem_zip hkp).1
    unfold encrypt
    rw [if_pos (hpk _ hk1)]
  have hxm : encrypt m (mcodec.write ⟨partition_keys, res.files, tenants_keys⟩)
      master_key = .ok (m.boxEncrypt master_key
        (mcodec.write ⟨partition_keys, res.files, tenants_keys⟩)) := by
    unfold encrypt
    rw [if_pos hmk]
  have hmc0 : mcodec.read (mcodec.write ⟨partition_keys, res.files, tenants_keys⟩) =
      .ok (⟨partition_keys, res.files, tenants_keys⟩, []) := by
    have h0 := hmc ⟨partition_keys, res.files, tenants_keys⟩ []
    rwa [List.append_nil] at h0
  have hdecm : decrypt m (m.boxEncrypt master_key
      (mcodec.write ⟨partition_keys, res.files, tenants_keys⟩)) master_key =
      .ok (mcodec.write ⟨partition_keys, res.files, tenants_keys⟩) := by
    unfold decrypt
    rw [if_pos hmk]
    exact hbox master_key _ hmk
  have hun := unseal_parts m pcodec hbox hp partition_keys res.partitions hpklen hpk
  have hpipe : packUnsealWriteout m pcodec mcodec c partition_keys tenants_keys
      master_key = .ok (writeout res.partitions
        (res.files.map (fun kv => (woPrefix kv.1, kv.2)))) := by
    unfold packUnsealWriteout collect_master unseal_master writeout_master
    rw [hres]
    simp only [hxp, hxm, hdecm, hmc0, hun]
  obtain ⟨b1, kbb1, pf1, hpz, hresEq⟩ := partition_files_ok_spec c res hres
  have hfiles : res.files = emitFiles (allocLoop b1 (sortLe (fun x y => Nat.ble x.1 y.1)
      kbb1) ⟨[], [], [], []⟩).b2p pf1 := by
    rw [hresEq]
  have hparts : res.partitions = (allocLoop b1 (sortLe (fun x y => Nat.ble x.1 y.1)
      kbb1) ⟨[], [], [], []⟩).partitions := by
    rw [hresEq]
  have hperm := sortLe_perm (fun x y => strLeB x.1 y.1) c.files
  have hwf' : ∀ e ∈ sortLe (fun x y => strLeB x.1 y.1) c.files,
      e.2.body_id < c.bodies.length := fun e he => hwf e (hperm.mem_iff.mp he)
  have hspec := processFiles_spec c.bodies
    (sortLe (fun x y => strLeB x.1 y.1) c.files) c.bodies [] (b1, kbb1, pf1)
    (List.prefix_refl _) hwf' hpz
  have hkbb : kbb1 = kbbFold [] pf1 :=
    processFiles_kbb (sortLe (fun x y => strLeB x.1 y.1) c.files)
      c.bodies [] (b1, kbb1, pf1) hpz
  have hinv : AllocInv b1 ([] ++ sortLe (fun x y => Nat.ble x.1 y.1) kbb1)
      (allocLoop b1 (sortLe (fun x y => Nat.ble x.1 y.1) kbb1) ⟨[], [], [], []⟩) :=
    allocLoop_inv b1 (sortLe (fun x y => Nat.ble x.1 y.1) kbb1) [] _ (allocInv_init b1)
  have hfa : List.Forall₂ (fun (e : Str × FilesCollectionItem) (q : PFile) =>
      classifyFile e.1 = some (q.key, q.name))
      (sortLe (fun x y => strLeB x.1 y.1) c.files) pf1 :=
    hspec.2.imp (fun a q hab => hab.1)
  have hnd' : ((sortLe (fun x y => strLeB x.1 y.1) c.files).map Prod.fst).Nodup :=
    (hperm.map Prod.fst).nodup_iff.mpr hnodup
  have hinj' : ∀ e1 ∈ sortLe (fun x y => strLeB x.1 y.1) c.files,
      ∀ e2 ∈ sortLe (fun x y => strLeB x.1 y.1) c.files,
      classifyFile e1.1 = classifyFile e2.1 → e1.1 = e2.1 :=
    fun e1 he1 e2 he2 => hinj e1 (hperm.mem_iff.mp he1) e2 (hperm.mem_iff.mp he2)
  have huniq := pfiles_uniq hfa hnd' hinj'
  have hb2p_fst : (allocLoop b1 (sortLe (fun x y => Nat.ble x.1 y.1) kbb1)
      ⟨[], [], [], []⟩).b2p.map Prod.fst =
      (sortLe (fun x y => Nat.ble x.1 y.1) kbb1).map Prod.fst := by
    have hx := hinv.b2p_fst
    simpa using hx
  have hfindb : ∀ pf ∈ pf1, ∃ loc, assocFind? pf.body_id (allocLoop b1
      (sortLe (fun x y => Nat.ble x.1 y.1) kbb1) ⟨[], [], [], []⟩).b2p = some loc := by
    intro pf hpf
    have hmemb : pf.body_id ∈ pf1.map (fun q => q.body_id) :=
      List.mem_map.mpr ⟨pf, hpf, rfl⟩
    have hsome : (assocFind? pf.body_id (kbbFold [] pf1)).isSome = true := by
      rw [kbbFold_find pf1 [] pf.body_id]
      simp only [assocFind?]
      rw [if_pos hmemb]
      rfl
    have h1 : pf.body_id ∈ (kbbFold [] pf1).map Prod.fst :=
      assocFind?_isSome_iff.mp hsome
    rw [← hkbb] at h1
    have h2 : pf.body_id ∈ (sortLe (fun x y => Nat.ble x.1 y.1) kbb1).map Prod.fst :=
      ((sortLe_perm (fun x y => Nat.ble x.1 y.1) kbb1).map Prod.fst).mem_iff.mpr h1
    rw [← hb2p_fst] at h2
    exact Option.isSome_iff_exists.mp (assocFind?_isSome_iff.mpr h2)
  refine ⟨writeout res.partitions (res.files.map (fun kv => (woPrefix kv.1, kv.2))),
    hpipe, ?_, ?_⟩
  · intro fname f hmemC
    have hmemS : (fname, f) ∈ sortLe (fun x y => strLeB x.1 y.1) c.files :=
      hperm.mem_iff.mpr hmemC
    obtain ⟨pf, hpfmem, hR⟩ := forall₂_mem_left hspec.2 hmemS
    obtain ⟨hcls, hpff, hblt, hbval, habs⟩ := hR
    obtain ⟨loc, hloc⟩ := hfindb pf hpfmem
    have hbok := hinv.b2p_ok (pf.body_id, loc) (assocFind?_mem hloc)
    have hitem : emitItem (allocLoop b1 (sortLe (fun x y => Nat.ble x.1 y.1) kbb1)
        ⟨[], [], [], []⟩).b2p pf = ⟨pf.f.metadata, loc.1, loc.2⟩ := by
      simp [emitItem, hloc]
    have hfindN := emitFiles_mem_find (allocLoop b1 (sortLe (fun x y => Nat.ble x.1 y.1)
        kbb1) ⟨[], [], [], []⟩).b2p pf1 [] pf hpfmem
      (fun q hq hqk hqn => huniq q hq pf hpfmem hqk hqn)
    unfold findNested at hfindN
    obtain ⟨inner, houter, hinner⟩ := Option.bind_eq_some.mp hfindN
    have houter2 : (pf.key, inner) ∈ res.files := by
      rw [hfiles]
      exact assocFind?_mem houter
    have hinner2 : (pf.name, emitItem (allocLoop b1 (sortLe (fun x y => Nat.ble x.1 y.1)
        kbb1) ⟨[], [], [], []⟩).b2p pf) ∈ inner := assocFind?_mem hinner
    obtain ⟨hpath, hksl⟩ := classify_path_rebuild hcls (hkey (fname, f) hmemC)
    have hslot : (res.partitions.getD loc.1 []).getD loc.2 [] =
        expectedBody c.bodies pf.key f := by
      rw [hparts, hbok.2.2]
      exact hbval
    have hjoinmem : ∀ w : WOut, w ∈ inner.map (fun fv : Str × FilesPartitionsItem =>
        let path := woPrefix pf.key ++ fv.1
        let body := (res.partitions.getD fv.2.partition_id []).getD fv.2.body_id []
        if fv.2.metadata.flags &&& SYMLINK ≠ 0 then
          if fv.2.metadata.flags &&& SYMLINK_ABS ≠ 0 then
            WOut.alink path (woPrefix pf.key ++ body)
          else WOut.link path body
        else WOut.file path body fv.2.metadata.mtime_ns) →
        w ∈ writeout res.partitions (res.files.map (fun kv => (woPrefix kv.1, kv.2))) := by
      intro w hw
      unfold writeout
      exact List.mem_join.mpr ⟨_, List.mem_map.mpr ⟨(woPrefix pf.key, inner),
        List.mem_map.mpr ⟨(pf.key, inner), houter2, rfl⟩, rfl⟩, hw⟩
    refine ⟨?_, ?_, ?_⟩
    · intro h0
      have hbody : (res.partitions.getD loc.1 []).getD loc.2 [] =
          c.bodies.getD f.body_id [] := by
        rw [hslot]
        exact expectedBody_plain h0
      have hbody2 := hbody
      simp only [List.getD_eq_getElem?_getD] at hbody2
      refine hjoinmem _ (List.mem_map.mpr ⟨(pf.name, emitItem (allocLoop b1
        (sortLe (fun x y => Nat.ble x.1 y.1) kbb1) ⟨[], [], [], []⟩).b2p pf),
        hinner2, ?_⟩)
      simp only [hitem]
      rw [hpff]
      simp [h0, hpath, hbody, hbody2]
    · intro h0 h1
      have hbody : (res.partitions.getD loc.1 []).getD loc.2 [] =
          c.bodies.getD f.body_id [] := by
        rw [hslot]
        exact expectedBody_rel h0 h1
      have hbody2 := hbody
      simp only [List.getD_eq_getElem?_getD] at hbody2
      refine hjoinmem _ (List.mem_map.mpr ⟨(pf.name, emitItem (allocLoop b1
        (sortLe (fun x y => Nat.ble x.1 y.1) kbb1) ⟨[], [], [], []⟩).b2p pf),
        hinner2, ?_⟩)
      simp only [hitem]
      rw [hpff]
      simp [h0, h1, hpath, hbody, hbody2]
    · intro h0 h1
      refine ⟨woPrefix pf.key ++ pyJoin slash
        ((pySplit slash (c.bodies.getD f.body_id [])).drop (requiredPfx pf.key).length),
        ?_, ?_⟩
      · have hbody : (res.partitions.getD loc.1 []).getD loc.2 [] =
            pyJoin slash ((pySplit slash (c.bodies.getD f.body_id [])).drop
              (requiredPfx pf.key).length) := by
          rw [hslot]
          exact expectedBody_abs h0 h1
        have hbody2 := hbody
        simp only [List.getD_eq_getElem?_getD] at hbody2
        refine hjoinmem _ (List.mem_map.mpr ⟨(pf.name, emitItem (allocLoop b1
          (sortLe (fun x y => Nat.ble x.1 y.1) kbb1) ⟨[], [], [], []⟩).b2p pf),
          hinner2, ?_⟩)
        simp only [hitem]
        rw [hpff]
        simp [h0, h1, hpath, hbody, hbody2]
      · exact abs_target_norm hksl (habs h0 h1)
  · intro o ho
    have ho2 : o ∈ ((res.files.map (fun kv => (woPrefix kv.1, kv.2))).map
        (fun pv => pv.2.map (fun fv : Str × FilesPartitionsItem =>
          let path := pv.1 ++ fv.1
          let body := (res.partitions.getD fv.2.partition_id []).getD fv.2.body_id []
          if fv.2.metadata.flags &&& SYMLINK ≠ 0 then
            if fv.2.metadata.flags &&& SYMLINK_ABS ≠ 0 then WOut.alink path (pv.1 ++ body)
            else WOut.link path body
          else WOut.file path body fv.2.metadata.mtime_ns))).join := ho
    obtain ⟨lst, hlst, holst⟩ := List.mem_join.mp ho2
    obtain ⟨pv, hpv, hlsteq⟩ := List.mem_map.mp hlst
    obtain ⟨kv, hkv, hpveq⟩ := List.mem_map.mp hpv
    rw [← hlsteq] at holst
    obtain ⟨fv, hfv, hoeq⟩ := List.mem_map.mp holst
    rw [hfiles] at hkv
    rw [← hpveq] at hfv
    have hfv2 : (fv.1, fv.2) ∈ kv.2 := hfv
    have hkv2 : (kv.1, kv.2) ∈ pf1.foldl (emitStep (allocLoop b1
        (sortLe (fun x y => Nat.ble x.1 y.1) kbb1) ⟨[], [], [], []⟩).b2p) [] := hkv
    rcases emitFold_nested_src _ pf1 [] kv.1 kv.2 fv.1 fv.2 hkv2 hfv2 with
      ⟨inner0, hmem0, _⟩ | ⟨pf, hpfm, hk1, hn1, _⟩
    · exact absurd hmem0 (List.not_mem_nil _)
    · obtain ⟨e, hemem, hRe⟩ := forall₂_mem_right hspec.2 hpfm
      have hec : e ∈ c.files := hperm.mem_iff.mp hemem
      obtain ⟨hpath, _⟩ := classify_path_rebuild hRe.1 (hkey e hec)
      refine ⟨e, hec, ?_⟩
      rw [← hoeq]
      have hgoal : pv.1 ++ fv.1 = e.1 := by
        rw [← hpveq]
        show woPrefix kv.1 ++ fv.1 = e.1
        rw [hk1, hn1]
        exact hpath
      by_cases hA : fv.2.metadata.flags &&& SYMLINK ≠ 0
      · by_cases hB : fv.2.metadata.flags &&& SYMLINK_ABS ≠ 0
        · simpa [woPath, hA, hB] using hgoal
        · simpa [woPath, hA, hB] using hgoal
      · simpa [woPath, hA] using hgoal

/-- Closed witness for `c2_pack_writeout_master_roundtrip` at the toy
NaCl model and codecs, a one-partition key list and a 32-byte master key,
over the two-file collection `c9_witness_collection`. -/
theorem c2_pack_writeout_master_roundtrip_witness :
    partition_files c9_witness_collection = .ok c9_witness_res ∧
    ∃ out, packUnsealWriteout naclToy pcodecToy mcodecToy c9_witness_collection
        [List.replicate 32 0] [] (List.replicate 32 1) = .ok out ∧
      (∀ fname f, (fname, f) ∈ c9_witness_collection.files →
        (f.metadata.flags &&& SYMLINK = 0 →
          WOut.file fname (c9_witness_collection.bodies.getD f.body_id [])
            f.metadata.mtime_ns ∈ out) ∧
        (f.metadata.flags &&& SYMLINK ≠ 0 → f.metadata.flags &&& SYMLINK_ABS = 0 →
          WOut.link fname (c9_witness_collection.bodies.getD f.body_id []) ∈ out) ∧
        (f.metadata.flags &&& SYMLINK ≠ 0 → f.metadata.flags &&& SYMLINK_ABS ≠ 0 →
          ∃ t, WOut.alink fname t ∈ out ∧
            dropTrailingEmpty (pySplit slash t) =
              dropTrailingEmpty (pySplit slash
                (c9_witness_collection.bodies.getD f.body_id [])))) ∧
      (∀ o ∈ out, ∃ e ∈ c9_witness_collection.files, woPath o = e.1) :=
  ⟨by decide,
   c2_pack_writeout_master_roundtrip naclToy pcodecToy mcodecToy
     c9_witness_collection c9_witness_res [List.replicate 32 0] []
     (List.replicate 32 1)
     (fun k msg hk => rfl)
     (fun x rest => by simp [pcodecToy, Encodable.encodek])
     (fun x rest => by simp [mcodecToy, Encodable.encodek])
     (by decide) (by decide) (by decide) (by decide) (by decide) (by decide)
     (by decide) (by decide)⟩

end WithCloudBlob
